import Mathlib

/-!
Verification of the `noetik` tool-call extraction pipeline.

This file gives a shallow embedding of the Python modules
`noetik/tools/tool_call_parser.py`, `noetik/tools/__init__.py`,
`noetik/agent/tool_executor.py` and `noetik/core/planner.py`
(`BasePlanner._parse_response`), together with theorems about the
properties the specification claims for them.

Modelling conventions:
* Python strings scanned by an index `i` become Lean `List Char` values,
  scanned by passing the suffix `s[i:]`; a function that in Python returned
  a new index returns the corresponding remaining suffix instead.
* The single Python exception type `ToolCallParseError` is modelled by the
  inductive `PErr`, with one constructor per `raise` site (in Python the
  sites are distinguished by their message strings); an unchecked `s[i]`
  access that could raise `IndexError` is modelled by the extra
  constructor `PErr.index`.
* Fallible functions return `Except PErr`.
-/

namespace Noetik

/-- Error kinds of the tool-call parser.  Each constructor except `index`
corresponds to one `raise ToolCallParseError(...)` site in
`tool_call_parser.py` (listed here with its Python message); `index` models
an `IndexError` escaping from an unchecked `s[i]` access. -/
inductive PErr where
  /-- message "unterminated triple-quoted string" -/
  | unterminatedTriple
  /-- message "unterminated string literal" -/
  | unterminatedString
  /-- message "expected quote at pos i" -/
  | expectedQuote
  /-- message "unbalanced braces" -/
  | unbalancedBraces
  /-- message "dict key at pos i must be quoted" -/
  | unquotedKey
  /-- message "missing colon after key" -/
  | missingColon
  /-- message "unexpected end of input while reading value" -/
  | unexpectedEndValue
  /-- message "dict must start with a left brace" -/
  | notADict
  /-- message "unexpected end of input in dict" -/
  | unexpectedEndDict
  /-- message "both tool and args keys are required" -/
  | missingKeys
  /-- message "tool name is empty" -/
  | emptyToolName
  /-- message "args must start with a left brace" -/
  | argsNotDict
  /-- an `IndexError` from an unchecked `s[i]` access (not a
  `ToolCallParseError` at all) -/
  | index
deriving Repr, DecidableEq

/-- Result type of the fallible parsing helpers. -/
abbrev PRes (α : Type) := Except PErr α

deriving instance DecidableEq for Except

/-- The single quote character `'`. -/
def sq : Char := Char.ofNat 39

/-- The double quote character `"`. -/
def dq : Char := Char.ofNat 34

/-- The left brace character. -/
def lb : Char := Char.ofNat 123

/-- The right brace character. -/
def rb : Char := Char.ofNat 125

/-- The backslash character. -/
def bs : Char := Char.ofNat 92

/-- Membership in `_WS = " \t\r\n"`. -/
def isWs (c : Char) : Bool :=
  c = ' ' || c = '\t' || c = '\r' || c = '\n'

/-- Membership in `_QUOTE_SET`. -/
def isQuote (c : Char) : Bool :=
  c = sq || c = dq

/-- Python whitespace predicate `str.isspace()` on a single character,
which also drives `str.strip()` with no argument and the regex class
`\s` on `str` patterns (CPython implements all three with
`Py_UNICODE_ISSPACE`): TAB..CR (9-13), FS..US (28-31), space (32),
NEL (133), NBSP (160), OGHAM SPACE MARK (5760), the Unicode space
block (8192-8202), LINE/PARAGRAPH SEPARATOR (8232, 8233), NARROW
NO-BREAK SPACE (8239), MEDIUM MATHEMATICAL SPACE (8287) and
IDEOGRAPHIC SPACE (12288). -/
def isPySpace (c : Char) : Bool :=
  (9 ≤ c.toNat && c.toNat ≤ 13) || (28 ≤ c.toNat && c.toNat ≤ 31) ||
  c.toNat = 32 || c.toNat = 133 || c.toNat = 160 || c.toNat = 5760 ||
  (8192 ≤ c.toNat && c.toNat ≤ 8202) || c.toNat = 8232 || c.toNat = 8233 ||
  c.toNat = 8239 || c.toNat = 8287 || c.toNat = 12288

/-- Embeds `_skip_ws`: advance past whitespace (returns the remaining
suffix instead of the new index). -/
def skip_ws : List Char → List Char
  | [] => []
  | c :: r => if isWs c then skip_ws r else c :: r

/-- Embeds Python `str.strip()`: drop `isPySpace` characters at both ends. -/
def pyStrip (l : List Char) : List Char :=
  ((l.dropWhile isPySpace).reverse.dropWhile isPySpace).reverse

/-- The scanning loop of `_read_quoted` for a triple-quoted string, after
the opening triple quote `q q q` has been consumed: collect characters
verbatim until the closing triple quote; the loop runs only while at least
three characters remain. -/
def readTriple (q : Char) : List Char → PRes (List Char × List Char)
  | a :: b :: c :: r =>
      if a = q ∧ b = q ∧ c = q then .ok ([], r)
      else
        match readTriple q (b :: c :: r) with
        | .error e => .error e
        | .ok (content, rest) => .ok (a :: content, rest)
  | _ => .error .unterminatedTriple

/-- The scanning loop of `_read_quoted` for a single/double-quoted string,
after the opening quote `q` has been consumed: backslash makes the next
character literal; an unescaped `q` closes the string. -/
def readEscaped (q : Char) : List Char → PRes (List Char × List Char)
  | [] => .error .unterminatedString
  | c :: r =>
      if c = bs then
        match r with
        | [] => .error .unterminatedString
        | d :: r2 =>
            match readEscaped q r2 with
            | .error e => .error e
            | .ok (out, rest) => .ok (d :: out, rest)
      else if c = q then .ok ([], r)
      else
        match readEscaped q r with
        | .error e => .error e
        | .ok (out, rest) => .ok (c :: out, rest)

/-- Embeds `_read_quoted`: read a Python-like quoted string, honouring
backslash escapes and triple quotes.  The triple-quote check fires only
when at least three characters remain (Python `i + 2 < len(s)`); with
fewer remaining characters the unchecked `quote = s[i]` access is an
`IndexError` when the input is exhausted. -/
def read_quoted : List Char → PRes (List Char × List Char)
  | a :: b :: c :: r =>
      if (a = sq ∧ b = sq ∧ c = sq) ∨ (a = dq ∧ b = dq ∧ c = dq) then
        readTriple a r
      else if isQuote a then readEscaped a (b :: c :: r)
      else .error .expectedQuote
  | l =>
      match l with
      | [] => .error .index
      | c :: r => if isQuote c then readEscaped c r else .error .expectedQuote

theorem skip_ws_length_le : ∀ l : List Char, (skip_ws l).length ≤ l.length := by
  intro l
  induction l with
  | nil => simp [skip_ws]
  | cons c r ih =>
      simp only [skip_ws]
      split
      · exact Nat.le_succ_of_le ih
      · simp

theorem skip_ws_idem : ∀ l : List Char, skip_ws (skip_ws l) = skip_ws l := by
  intro l
  induction l with
  | nil => simp [skip_ws]
  | cons c r ih =>
      simp only [skip_ws]
      split
      · exact ih
      · simp only [skip_ws]
        split
        · simp_all
        · rfl

theorem skip_ws_nil : skip_ws [] = [] := rfl

theorem readTriple_length (q : Char) :
    ∀ l {content rest : List Char}, readTriple q l = .ok (content, rest) →
      rest.length < l.length
  | a :: b :: c :: r, content, rest, h => by
      by_cases hq : a = q ∧ b = q ∧ c = q
      · simp only [readTriple, if_pos hq, Except.ok.injEq, Prod.mk.injEq] at h
        obtain ⟨-, rfl⟩ := h
        simp only [List.length_cons]
        omega
      · simp only [readTriple, if_neg hq] at h
        cases hrec : readTriple q (b :: c :: r) with
        | error e => rw [hrec] at h; cases h
        | ok p =>
            obtain ⟨co, re⟩ := p
            rw [hrec] at h
            simp only [Except.ok.injEq, Prod.mk.injEq] at h
            obtain ⟨-, rfl⟩ := h
            have := readTriple_length q (b :: c :: r) hrec
            simp only [List.length_cons] at this ⊢
            omega
  | [], _, _, h => by
      rw [show readTriple q [] = .error .unterminatedTriple from rfl] at h
      cases h
  | [a], _, _, h => by
      rw [show readTriple q [a] = .error .unterminatedTriple from rfl] at h
      cases h
  | [a, b], _, _, h => by
      rw [show readTriple q [a, b] = .error .unterminatedTriple from rfl] at h
      cases h

theorem readEscaped_length (q : Char) :
    ∀ l {content rest : List Char}, readEscaped q l = .ok (content, rest) →
      rest.length < l.length
  | [], _, _, h => by simp [readEscaped] at h
  | c :: r, content, rest, h => by
      by_cases hbs : c = bs
      · rw [readEscaped.eq_def] at h
        simp only [if_pos hbs] at h
        cases r with
        | nil => simp at h
        | cons d r2 =>
            have h2 : (match readEscaped q r2 with
                | .error e => (.error e : PRes (List Char × List Char))
                | .ok (out, rest) => .ok (d :: out, rest)) = .ok (content, rest) := h
            cases hrec : readEscaped q r2 with
            | error e => rw [hrec] at h2; cases h2
            | ok p =>
                obtain ⟨co, re⟩ := p
                rw [hrec] at h2
                simp only [Except.ok.injEq, Prod.mk.injEq] at h2
                obtain ⟨-, rfl⟩ := h2
                have := readEscaped_length q r2 hrec
                simp only [List.length_cons] at this ⊢
                omega
      · by_cases hq : c = q
        · rw [readEscaped.eq_def] at h
          simp only [if_neg hbs, if_pos hq, Except.ok.injEq, Prod.mk.injEq] at h
          obtain ⟨-, rfl⟩ := h
          simp
        · rw [readEscaped.eq_def] at h
          simp only [if_neg hbs, if_neg hq] at h
          cases hrec : readEscaped q r with
          | error e => rw [hrec] at h; cases h
          | ok p =>
              obtain ⟨co, re⟩ := p
              rw [hrec] at h
              simp only [Except.ok.injEq, Prod.mk.injEq] at h
              obtain ⟨-, rfl⟩ := h
              have := readEscaped_length q r hrec
              simp only [List.length_cons] at this ⊢
              omega

theorem read_quoted_length :
    ∀ {l content rest}, read_quoted l = .ok (content, rest) →
      rest.length < l.length := by
  intro l content rest h
  match l with
  | a :: b :: c :: r =>
      simp only [read_quoted] at h
      split at h
      · have := readTriple_length a r h
        simp only [List.length_cons]
        omega
      · split at h
        · have := readEscaped_length a (b :: c :: r) h
          simp only [List.length_cons] at this ⊢
          omega
        · cases h
  | [] => simp [read_quoted] at h
  | [c] =>
      simp only [read_quoted] at h
      split at h
      · have := readEscaped_length c [] h
        simp only [List.length_cons] at this ⊢
        omega
      · cases h
  | [c, d] =>
      simp only [read_quoted] at h
      split at h
      · have := readEscaped_length c [d] h
        simp only [List.length_cons] at this ⊢
        omega
      · cases h

/-- Embeds `_find_matching_brace`: scan forward keeping a depth counter
(`depth` is the Python local before the current character is processed),
skipping quoted regions via `read_quoted`; when a right brace brings the
depth to zero, return the suffix just past it.  The Python function
returns the index just past the closing brace; the raw span `s[i:j]` it
delimits is recovered by the caller from the lengths. -/
def find_matching_brace (depth : Int) : List Char → PRes (List Char)
  | [] => .error .unbalancedBraces
  | c :: r =>
      if c = lb then find_matching_brace (depth + 1) r
      else if c = rb then
        if depth - 1 = 0 then .ok r
        else find_matching_brace (depth - 1) r
      else if isQuote c then
        match h : read_quoted (c :: r) with
        | .error e => .error e
        | .ok (_, rest) => find_matching_brace depth rest
      else find_matching_brace depth r
termination_by l => l.length
decreasing_by
  · simp
  · simp
  · exact read_quoted_length h
  · simp

/-- The scalar-token loop of `_read_value`: scan until a top-level comma
or right brace (or the end of input), tracking brace depth and skipping
quoted spans; returns the suffix at the stopping point (the consumed raw
span is recovered by the caller from the lengths). -/
def scanScalar (depth : Int) : List Char → PRes (List Char)
  | [] => .ok []
  | c :: r =>
      if isQuote c then
        match h : read_quoted (c :: r) with
        | .error e => .error e
        | .ok (_, rest) => scanScalar depth rest
      else if c = lb then scanScalar (depth + 1) r
      else if c = rb then
        if depth = 0 then .ok (c :: r)
        else scanScalar (depth - 1) r
      else if c = ',' then
        if depth = 0 then .ok (c :: r)
        else scanScalar depth r
      else scanScalar depth r
termination_by l => l.length
decreasing_by
  · exact read_quoted_length h
  · simp
  · simp
  · simp
  · simp

/-- Embeds `_read_key`: skip whitespace, read a quoted key (the unchecked
`s[i]` access is an `IndexError` on exhausted input), then require a
colon. -/
def read_key (l : List Char) : PRes (List Char × List Char) :=
  match skip_ws l with
  | [] => .error .index
  | c :: r =>
      if ¬ isQuote c then .error .unquotedKey
      else
        match read_quoted (c :: r) with
        | .error e => .error e
        | .ok (key, rest) =>
            match skip_ws rest with
            | [] => .error .missingColon
            | d :: r2 =>
                if d = ':' then .ok (key, r2) else .error .missingColon

/-- Embeds `_read_value`: skip whitespace and type-sniff the next
character - a quote yields the quoted content, a left brace yields the raw
brace-balanced span (braces included, not recursively parsed), anything
else yields the stripped raw scalar token. -/
def read_value (l : List Char) : PRes (List Char × List Char) :=
  match skip_ws l with
  | [] => .error .unexpectedEndValue
  | c :: r =>
      if isQuote c then read_quoted (c :: r)
      else if c = lb then
        match find_matching_brace 0 (c :: r) with
        | .error e => .error e
        | .ok rest => .ok ((c :: r).take ((c :: r).length - rest.length), rest)
      else
        match scanScalar 0 (c :: r) with
        | .error e => .error e
        | .ok rest =>
            .ok (pyStrip ((c :: r).take ((c :: r).length - rest.length)), rest)

theorem find_matching_brace_nil (d : Int) :
    find_matching_brace d [] = .error .unbalancedBraces := by
  rw [find_matching_brace.eq_def]

theorem find_matching_brace_lb (d : Int) (r : List Char) :
    find_matching_brace d (lb :: r) = find_matching_brace (d + 1) r := by
  rw [find_matching_brace.eq_def]
  simp

theorem find_matching_brace_rb (d : Int) (r : List Char) :
    find_matching_brace d (rb :: r) =
      if d - 1 = 0 then .ok r else find_matching_brace (d - 1) r := by
  rw [find_matching_brace.eq_def]
  have h1 : rb ≠ lb := by decide
  simp [h1]

theorem find_matching_brace_quote_ok {c : Char} {r p rest : List Char}
    (d : Int) (hq : isQuote c = true)
    (hr : read_quoted (c :: r) = .ok (p, rest)) :
    find_matching_brace d (c :: r) = find_matching_brace d rest := by
  have hlb : c ≠ lb := by
    intro hc; subst hc; simp [isQuote, sq, dq, lb] at hq
  have hrb : c ≠ rb := by
    intro hc; subst hc; simp [isQuote, sq, dq, rb] at hq
  rw [find_matching_brace.eq_def]
  simp only [if_neg hlb, if_neg hrb, hq, if_true]
  split
  · next e heq => rw [hr] at heq; cases heq
  · next p2 rest2 heq =>
      rw [hr] at heq
      cases heq
      rfl

theorem find_matching_brace_other {c : Char} (d : Int) (r : List Char)
    (hlb : c ≠ lb) (hrb : c ≠ rb) (hq : isQuote c = false) :
    find_matching_brace d (c :: r) = find_matching_brace d r := by
  rw [find_matching_brace.eq_def]
  simp [hlb, hrb, hq]

theorem scanScalar_nil (d : Int) : scanScalar d [] = .ok [] := by
  rw [scanScalar.eq_def]

theorem scanScalar_quote_ok {c : Char} {r p rest : List Char}
    (d : Int) (hq : isQuote c = true)
    (hr : read_quoted (c :: r) = .ok (p, rest)) :
    scanScalar d (c :: r) = scanScalar d rest := by
  rw [scanScalar.eq_def]
  simp only [hq, if_true]
  split
  · next e heq => rw [hr] at heq; cases heq
  · next p2 rest2 heq =>
      rw [hr] at heq
      cases heq
      rfl

theorem scanScalar_lb (d : Int) (r : List Char) :
    scanScalar d (lb :: r) = scanScalar (d + 1) r := by
  rw [scanScalar.eq_def]
  have hq : isQuote lb = false := by decide
  simp [hq]

theorem scanScalar_rb (d : Int) (r : List Char) :
    scanScalar d (rb :: r) =
      if d = 0 then .ok (rb :: r) else scanScalar (d - 1) r := by
  rw [scanScalar.eq_def]
  have hq : isQuote rb = false := by decide
  have h1 : rb ≠ lb := by decide
  simp [hq, h1]

theorem scanScalar_comma (d : Int) (r : List Char) :
    scanScalar d (',' :: r) =
      if d = 0 then .ok (',' :: r) else scanScalar d r := by
  rw [scanScalar.eq_def]
  have hq : isQuote ',' = false := by decide
  have h1 : ',' ≠ lb := by decide
  have h2 : ',' ≠ rb := by decide
  simp [hq, h1, h2]

theorem scanScalar_other {c : Char} (d : Int) (r : List Char)
    (hq : isQuote c = false) (hlb : c ≠ lb) (hrb : c ≠ rb)
    (hcm : c ≠ ',') :
    scanScalar d (c :: r) = scanScalar d r := by
  rw [scanScalar.eq_def]
  simp [hq, hlb, hrb, hcm]

theorem find_matching_brace_quote_err {c : Char} {r : List Char} {e : PErr}
    (d : Int) (hq : isQuote c = true)
    (hr : read_quoted (c :: r) = .error e) :
    find_matching_brace d (c :: r) = .error e := by
  have hlb : c ≠ lb := by
    intro hc; subst hc; simp [isQuote, sq, dq, lb] at hq
  have hrb : c ≠ rb := by
    intro hc; subst hc; simp [isQuote, sq, dq, rb] at hq
  rw [find_matching_brace.eq_def]
  simp only [if_neg hlb, if_neg hrb, hq, if_true]
  split
  · next e2 heq => rw [hr] at heq; cases heq; rfl
  · next p2 rest2 heq => rw [hr] at heq; cases heq

theorem scanScalar_quote_err {c : Char} {r : List Char} {e : PErr}
    (d : Int) (hq : isQuote c = true)
    (hr : read_quoted (c :: r) = .error e) :
    scanScalar d (c :: r) = .error e := by
  rw [scanScalar.eq_def]
  simp only [hq, if_true]
  split
  · next e2 heq => rw [hr] at heq; cases heq; rfl
  · next p2 rest2 heq => rw [hr] at heq; cases heq

theorem find_matching_brace_length :
    ∀ (d : Int) (l : List Char) {rest : List Char},
      find_matching_brace d l = .ok rest → rest.length < l.length
  | d, [], rest, h => by rw [find_matching_brace_nil] at h; cases h
  | d, c :: r, rest, h => by
      by_cases hlb : c = lb
      · subst hlb
        rw [find_matching_brace_lb] at h
        have := find_matching_brace_length (d + 1) r h
        simp only [List.length_cons]
        omega
      · by_cases hrb : c = rb
        · subst hrb
          rw [find_matching_brace_rb] at h
          by_cases hd : d - 1 = 0
          · rw [if_pos hd] at h
            cases h
            simp
          · rw [if_neg hd] at h
            have := find_matching_brace_length (d - 1) r h
            simp only [List.length_cons]
            omega
        · by_cases hq : isQuote c
          · cases hrq : read_quoted (c :: r) with
            | error e =>
                rw [find_matching_brace_quote_err d hq hrq] at h
                cases h
            | ok p =>
                obtain ⟨p1, rest0⟩ := p
                rw [find_matching_brace_quote_ok d hq hrq] at h
                have h1 := read_quoted_length hrq
                have h2 := find_matching_brace_length d rest0 h
                omega
          · rw [find_matching_brace_other d r hlb hrb (by simpa using hq)] at h
            have := find_matching_brace_length d r h
            simp only [List.length_cons]
            omega
termination_by d l => l.length
decreasing_by all_goals first
  | exact read_quoted_length hrq
  | simp

theorem scanScalar_length :
    ∀ (d : Int) (l : List Char) {rest : List Char},
      scanScalar d l = .ok rest → rest.length ≤ l.length
  | d, [], rest, h => by
      rw [scanScalar_nil] at h
      cases h
      simp
  | d, c :: r, rest, h => by
      by_cases hq : isQuote c
      · cases hrq : read_quoted (c :: r) with
        | error e =>
            rw [scanScalar_quote_err d hq hrq] at h
            cases h
        | ok p =>
            obtain ⟨p1, rest0⟩ := p
            rw [scanScalar_quote_ok d hq hrq] at h
            have h1 := read_quoted_length hrq
            have h2 := scanScalar_length d rest0 h
            omega
      · have hq' : isQuote c = false := by simpa using hq
        by_cases hlb : c = lb
        · subst hlb
          rw [scanScalar_lb] at h
          have := scanScalar_length (d + 1) r h
          simp only [List.length_cons]
          omega
        · by_cases hrb : c = rb
          · subst hrb
            rw [scanScalar_rb] at h
            by_cases hd : d = 0
            · rw [if_pos hd] at h
              cases h
              simp
            · rw [if_neg hd] at h
              have := scanScalar_length (d - 1) r h
              simp only [List.length_cons]
              omega
          · by_cases hcm : c = ','
            · subst hcm
              rw [scanScalar_comma] at h
              by_cases hd : d = 0
              · rw [if_pos hd] at h
                cases h
                simp
              · rw [if_neg hd] at h
                have := scanScalar_length d r h
                simp only [List.length_cons]
                omega
            · rw [scanScalar_other d r hq' hlb hrb hcm] at h
              have := scanScalar_length d r h
              simp only [List.length_cons]
              omega
termination_by d l => l.length
decreasing_by all_goals first
  | exact read_quoted_length hrq
  | simp

theorem read_key_ws_nil {l : List Char} (hw : skip_ws l = []) :
    read_key l = .error .index := by
  unfold read_key
  rw [hw]

theorem read_key_unquoted {l : List Char} {c : Char} {r : List Char}
    (hw : skip_ws l = c :: r) (hq : isQuote c = false) :
    read_key l = .error .unquotedKey := by
  unfold read_key
  rw [hw]
  simp [hq]

theorem read_key_quote_err {l : List Char} {c : Char} {r : List Char} {e : PErr}
    (hw : skip_ws l = c :: r) (hq : isQuote c = true)
    (hrq : read_quoted (c :: r) = .error e) :
    read_key l = .error e := by
  unfold read_key
  rw [hw]
  simp [hq, hrq]

theorem read_key_colon_nil {l : List Char} {c : Char} {r key rest1 : List Char}
    (hw : skip_ws l = c :: r) (hq : isQuote c = true)
    (hrq : read_quoted (c :: r) = .ok (key, rest1))
    (hw2 : skip_ws rest1 = []) :
    read_key l = .error .missingColon := by
  unfold read_key
  rw [hw]
  simp [hq, hrq, hw2]

theorem read_key_colon_bad {l : List Char} {c : Char} {r key rest1 : List Char}
    {d : Char} {r2 : List Char}
    (hw : skip_ws l = c :: r) (hq : isQuote c = true)
    (hrq : read_quoted (c :: r) = .ok (key, rest1))
    (hw2 : skip_ws rest1 = d :: r2) (hd : d ≠ ':') :
    read_key l = .error .missingColon := by
  unfold read_key
  rw [hw]
  simp [hq, hrq, hw2, hd]

theorem read_key_ok {l : List Char} {c : Char} {r key rest1 : List Char}
    {r2 : List Char}
    (hw : skip_ws l = c :: r) (hq : isQuote c = true)
    (hrq : read_quoted (c :: r) = .ok (key, rest1))
    (hw2 : skip_ws rest1 = ':' :: r2) :
    read_key l = .ok (key, r2) := by
  unfold read_key
  rw [hw]
  simp [hq, hrq, hw2]

theorem read_value_ws_nil {l : List Char} (hw : skip_ws l = []) :
    read_value l = .error .unexpectedEndValue := by
  unfold read_value
  rw [hw]

theorem read_value_quoted {l : List Char} {c : Char} {r : List Char}
    (hw : skip_ws l = c :: r) (hq : isQuote c = true) :
    read_value l = read_quoted (c :: r) := by
  unfold read_value
  rw [hw]
  simp [hq]

theorem read_value_brace_ok {l : List Char} {r rest : List Char}
    (hw : skip_ws l = lb :: r)
    (hf : find_matching_brace 0 (lb :: r) = .ok rest) :
    read_value l =
      .ok ((lb :: r).take ((lb :: r).length - rest.length), rest) := by
  unfold read_value
  rw [hw]
  have hq : isQuote lb = false := by decide
  simp [hq, hf]

theorem read_value_brace_err {l : List Char} {r : List Char} {e : PErr}
    (hw : skip_ws l = lb :: r)
    (hf : find_matching_brace 0 (lb :: r) = .error e) :
    read_value l = .error e := by
  unfold read_value
  rw [hw]
  have hq : isQuote lb = false := by decide
  simp [hq, hf]

theorem read_value_scalar_ok {l : List Char} {c : Char} {r rest : List Char}
    (hw : skip_ws l = c :: r) (hq : isQuote c = false) (hlb : c ≠ lb)
    (hs : scanScalar 0 (c :: r) = .ok rest) :
    read_value l =
      .ok (pyStrip ((c :: r).take ((c :: r).length - rest.length)), rest) := by
  unfold read_value
  rw [hw]
  simp [hq, hlb, hs]

theorem read_value_scalar_err {l : List Char} {c : Char} {r : List Char} {e : PErr}
    (hw : skip_ws l = c :: r) (hq : isQuote c = false) (hlb : c ≠ lb)
    (hs : scanScalar 0 (c :: r) = .error e) :
    read_value l = .error e := by
  unfold read_value
  rw [hw]
  simp [hq, hlb, hs]

theorem read_key_length {l key rest : List Char}
    (h : read_key l = .ok (key, rest)) : rest.length < l.length := by
  have h3 : (skip_ws l).length ≤ l.length := skip_ws_length_le l
  cases hw : skip_ws l with
  | nil => rw [read_key_ws_nil hw] at h; cases h
  | cons c r =>
      rw [hw] at h3
      cases hq : isQuote c with
      | false => rw [read_key_unquoted hw hq] at h; cases h
      | true =>
          cases hrq : read_quoted (c :: r) with
          | error e => rw [read_key_quote_err hw hq hrq] at h; cases h
          | ok p =>
              obtain ⟨key0, rest1⟩ := p
              have h1 := read_quoted_length hrq
              have h2 : (skip_ws rest1).length ≤ rest1.length :=
                skip_ws_length_le rest1
              cases hw2 : skip_ws rest1 with
              | nil => rw [read_key_colon_nil hw hq hrq hw2] at h; cases h
              | cons d r2 =>
                  rw [hw2] at h2
                  by_cases hd : d = ':'
                  · subst hd
                    rw [read_key_ok hw hq hrq hw2] at h
                    cases h
                    simp only [List.length_cons] at h1 h2 h3 ⊢
                    omega
                  · rw [read_key_colon_bad hw hq hrq hw2 hd] at h
                    cases h

theorem read_value_length {l val rest : List Char}
    (h : read_value l = .ok (val, rest)) : rest.length ≤ l.length := by
  have h3 : (skip_ws l).length ≤ l.length := skip_ws_length_le l
  cases hw : skip_ws l with
  | nil => rw [read_value_ws_nil hw] at h; cases h
  | cons c r =>
      rw [hw] at h3
      cases hq : isQuote c with
      | true =>
          rw [read_value_quoted hw hq] at h
          have := read_quoted_length h
          simp only [List.length_cons] at this h3
          omega
      | false =>
          by_cases hlb : c = lb
          · subst hlb
            cases hf : find_matching_brace 0 (lb :: r) with
            | error e => rw [read_value_brace_err hw hf] at h; cases h
            | ok rest2 =>
                rw [read_value_brace_ok hw hf] at h
                cases h
                have := find_matching_brace_length 0 (lb :: r) hf
                simp only [List.length_cons] at this h3
                omega
          · cases hs : scanScalar 0 (c :: r) with
            | error e => rw [read_value_scalar_err hw hq hlb hs] at h; cases h
            | ok rest2 =>
                rw [read_value_scalar_ok hw hq hlb hs] at h
                cases h
                have := scanScalar_length 0 (c :: r) hs
                simp only [List.length_cons] at this h3
                omega

/-- Python-dict assignment `out[key] = val` on an insertion-ordered
association list: an existing key keeps its position and gets the new
value, a new key is appended at the end. -/
def dictSet {α : Type} (d : List (String × α)) (k : String) (v : α) :
    List (String × α) :=
  if d.any (fun e => e.1 = k) then
    d.map (fun e => if e.1 = k then (k, v) else e)
  else d ++ [(k, v)]

/-- Python-dict lookup `d[k]` (as an `Option`): value of the (unique)
entry with key `k`. -/
def dictGet {α : Type} (d : List (String × α)) (k : String) : Option α :=
  (d.find? (fun e => e.1 = k)).map (fun e => e.2)

/-- The `while True` loop of `_parse_shallow_dict`, entered just after the
opening brace was consumed, with `out` the accumulated dict.  Each
iteration: skip whitespace (failing on exhausted input), stop at a right
brace, otherwise read one `key : value` pair, store it (last write wins),
then consume one optional comma. -/
def parseDictLoop (out : List (String × String)) (l : List Char) :
    PRes (List (String × String)) :=
  match hw : skip_ws l with
  | [] => .error .unexpectedEndDict
  | c :: r =>
      if c = rb then .ok out
      else
        match hk : read_key (c :: r) with
        | .error e => .error e
        | .ok (key, rest1) =>
            match hv : read_value rest1 with
            | .error e => .error e
            | .ok (val, rest2) =>
                let out2 := dictSet out (String.mk key) (String.mk val)
                match hw3 : skip_ws rest2 with
                | ',' :: r3 => parseDictLoop out2 r3
                | l3 => parseDictLoop out2 l3
termination_by l.length
decreasing_by
  · have h0 : (skip_ws l).length ≤ l.length := skip_ws_length_le l
    have h1 : rest1.length < (c :: r).length := read_key_length hk
    have h2 : rest2.length ≤ rest1.length := read_value_length hv
    have h3 : (skip_ws rest2).length ≤ rest2.length := skip_ws_length_le rest2
    rw [hw] at h0
    rw [hw3] at h3
    simp only [List.length_cons] at h0 h1 h3
    omega
  · have h0 : (skip_ws l).length ≤ l.length := skip_ws_length_le l
    have h1 : rest1.length < (c :: r).length := read_key_length hk
    have h2 : rest2.length ≤ rest1.length := read_value_length hv
    have h3 : (skip_ws rest2).length ≤ rest2.length := skip_ws_length_le rest2
    rw [hw] at h0
    rw [hw3] at h3
    simp only [List.length_cons] at h0 h1 h3
    omega

/-- Embeds `_parse_shallow_dict`: require a left brace after leading
whitespace, then run the key/value loop. -/
def parse_shallow_dict (l : List Char) : PRes (List (String × String)) :=
  match skip_ws l with
  | [] => .error .notADict
  | c :: r => if c = lb then parseDictLoop [] r else .error .notADict

/-- The record returned by `parse_tool_call`:
`(tool name, parsed args dict)`. -/
structure Envelope where
  tool : String
  args : List (String × String)
deriving Repr, DecidableEq

/-- Embeds `parse_tool_call` over a character list: parse the outer
shallow dict, require both `tool` and `args` keys (Python checks
membership, then accesses `top["tool"]` and `top["args"]`, merged here
into one option match), strip and non-empty-check the tool name, strip
the raw args span, require it to start with a left brace, and parse it as
the inner shallow dict. -/
def parseToolCallL (l : List Char) : PRes Envelope :=
  match parse_shallow_dict l with
  | .error e => .error e
  | .ok top =>
      match dictGet top "tool", dictGet top "args" with
      | some toolVal, some argsVal =>
          let toolStripped := pyStrip toolVal.data
          if toolStripped.isEmpty then .error .emptyToolName
          else
            let argsRaw := pyStrip argsVal.data
            match argsRaw with
            | c :: _ =>
                if c = lb then
                  match parse_shallow_dict argsRaw with
                  | .error e => .error e
                  | .ok argsDict =>
                      .ok { tool := String.mk toolStripped, args := argsDict }
                else .error .argsNotDict
            | [] => .error .argsNotDict
      | _, _ => .error .missingKeys

/-- Embeds `parse_tool_call` on a `String` input. -/
def parse_tool_call (s : String) : PRes Envelope :=
  parseToolCallL s.data

/-- Serialized value shapes used by the specification's round-trip
property: a double-quoted scalar string, or a braced args dict whose
values are themselves double-quoted scalar strings. -/
inductive SVal where
  | q (v : List Char)
  | braced (inner : List (List Char × List Char))
deriving Repr, DecidableEq

instance : Inhabited SVal := ⟨SVal.q []⟩

/-- A character that needs no escaping inside a double-quoted serialized
string: not a quote character and not a backslash. -/
def goodChar (c : Char) : Bool :=
  !(c = sq || c = dq || c = bs)

/-- All characters of the string are serializable verbatim. -/
def goodStr (v : List Char) : Bool := v.all goodChar

/-- Well-formedness of a serialized value. -/
def goodVal : SVal → Bool
  | .q v => goodStr v
  | .braced inner => inner.all (fun kv => goodStr kv.1 && goodStr kv.2)

/-- Well-formedness of a serialized entry list. -/
def goodEntries (es : List (List Char × SVal)) : Bool :=
  es.all (fun e => goodStr e.1 && goodVal e.2)

/-- Render one serialized value. -/
def renderVal : SVal → List Char
  | .q v => dq :: v ++ [dq]
  | .braced inner =>
      lb :: renderQEntries inner ++ [rb]
where
  /-- Render `"k": "v"` pairs separated by a comma and a space. -/
  renderQEntries : List (List Char × List Char) → List Char
    | [] => []
    | [kv] => dq :: kv.1 ++ dq :: ':' :: ' ' :: dq :: kv.2 ++ [dq]
    | kv :: rest =>
        dq :: kv.1 ++ dq :: ':' :: ' ' :: dq :: kv.2 ++ dq :: ',' :: ' ' ::
          renderQEntries rest

/-- Render one `"key": value` entry. -/
def renderEntry (k : List Char) (sv : SVal) : List Char :=
  dq :: k ++ dq :: ':' :: ' ' :: renderVal sv

/-- Render an entry list, entries separated by a comma and a space. -/
def renderEntries : List (List Char × SVal) → List Char
  | [] => []
  | [e] => renderEntry e.1 e.2
  | e :: es => renderEntry e.1 e.2 ++ ',' :: ' ' :: renderEntries es

/-- View a plain string-to-string args mapping as q-valued entries. -/
def asQ (args : List (List Char × List Char)) : List (List Char × SVal) :=
  args.map (fun kv => (kv.1, .q kv.2))

/-- The string the shallow-dict parser extracts for a serialized value:
the literal content for a quoted string, the raw span (braces included)
for a braced dict. -/
def parsedVal : SVal → List Char
  | .q v => v
  | .braced inner => renderVal (.braced inner)

/-- Serialize `(name, args)` as the spec's round-trip property prescribes:
a two-key envelope with double-quoted keys and values. -/
def mkEnvelope (name : List Char) (args : List (List Char × List Char)) :
    List Char :=
  lb :: renderEntries
    [("tool".data, .q name), ("args".data, .braced args)] ++ [rb]

theorem goodChar_spec {c : Char} (h : goodChar c = true) :
    c ≠ sq ∧ c ≠ dq ∧ c ≠ bs := by
  simp only [goodChar, Bool.not_eq_true', Bool.or_eq_false_iff,
    decide_eq_false_iff_not] at h
  exact ⟨h.1.1, h.1.2, h.2⟩

theorem readEscaped_exact (q : Char) (hqs : q = sq ∨ q = dq) :
    ∀ (v rest : List Char), goodStr v = true →
      readEscaped q (v ++ q :: rest) = .ok (v, rest) := by
  intro v
  induction v with
  | nil =>
      intro rest _
      have hqbs : q ≠ bs := by
        rcases hqs with h | h <;> subst h <;> decide
      show readEscaped q (q :: rest) = .ok ([], rest)
      rw [readEscaped.eq_def]
      simp [hqbs]
  | cons c v' ih =>
      intro rest hg
      simp only [goodStr, List.all_cons, Bool.and_eq_true] at hg
      obtain ⟨hc, hv'⟩ := hg
      obtain ⟨hc1, hc2, hc3⟩ := goodChar_spec hc
      have hcq : c ≠ q := by
        rcases hqs with h | h <;> subst h
        · exact hc1
        · exact hc2
      show readEscaped q (c :: (v' ++ q :: rest)) = .ok (c :: v', rest)
      rw [readEscaped.eq_def]
      simp only [if_neg hc3, if_neg hcq]
      rw [ih rest hv']

theorem read_quoted_not_triple {a b c : Char} {r : List Char}
    (h : ¬((a = sq ∧ b = sq ∧ c = sq) ∨ (a = dq ∧ b = dq ∧ c = dq)))
    (hq : isQuote a = true) :
    read_quoted (a :: b :: c :: r) = readEscaped a (b :: c :: r) := by
  simp [read_quoted, h, hq]

theorem read_quoted_dq (v rest : List Char) (hg : goodStr v = true)
    (hno3 : v = [] → rest.head? ≠ some dq) :
    read_quoted (dq :: v ++ dq :: rest) = .ok (v, rest) := by
  cases v with
  | nil =>
      cases rest with
      | nil => rfl
      | cons x rest' =>
          have hx : x ≠ dq := by
            intro hc
            exact hno3 rfl (by simp [hc])
          have hnt : ¬((dq = sq ∧ dq = sq ∧ x = sq) ∨
              (dq = dq ∧ dq = dq ∧ x = dq)) := by
            intro hc
            rcases hc with ⟨h1, -, -⟩ | ⟨-, -, h3⟩
            · exact absurd h1 (by decide)
            · exact hx h3
          show read_quoted (dq :: dq :: x :: rest') = .ok ([], x :: rest')
          rw [read_quoted_not_triple hnt (by decide)]
          have h2 := readEscaped_exact dq (Or.inr rfl) [] (x :: rest') (by decide)
          simpa using h2
  | cons c1 v' =>
      simp only [goodStr, List.all_cons, Bool.and_eq_true] at hg
      obtain ⟨hc, hv'⟩ := hg
      obtain ⟨-, hc2, -⟩ := goodChar_spec hc
      cases v' with
      | nil =>
          have hnt : ¬((dq = sq ∧ c1 = sq ∧ dq = sq) ∨
              (dq = dq ∧ c1 = dq ∧ dq = dq)) := by
            intro hc'
            rcases hc' with ⟨h1, -, -⟩ | ⟨-, h2, -⟩
            · exact absurd h1 (by decide)
            · exact hc2 h2
          show read_quoted (dq :: c1 :: dq :: rest) = .ok ([c1], rest)
          rw [read_quoted_not_triple hnt (by decide)]
          have h2 := readEscaped_exact dq (Or.inr rfl) [c1] rest
            (by simpa [goodStr] using hc)
          simpa using h2
      | cons c2 v'' =>
          have hnt : ¬((dq = sq ∧ c1 = sq ∧ c2 = sq) ∨
              (dq = dq ∧ c1 = dq ∧ c2 = dq)) := by
            intro hc'
            rcases hc' with ⟨h1, -, -⟩ | ⟨-, h2, -⟩
            · exact absurd h1 (by decide)
            · exact hc2 h2
          show read_quoted
              (dq :: c1 :: c2 :: (v'' ++ dq :: rest)) = .ok (c1 :: c2 :: v'', rest)
          rw [read_quoted_not_triple hnt (by decide)]
          have : goodStr (c1 :: c2 :: v'') = true := by
            simp only [goodStr, List.all_cons, Bool.and_eq_true] at hv' ⊢
            exact ⟨hc, hv'⟩
          have h2 := readEscaped_exact dq (Or.inr rfl) (c1 :: c2 :: v'') rest this
          simpa using h2

theorem skip_ws_cons_not {c : Char} (l : List Char) (h : isWs c = false) :
    skip_ws (c :: l) = c :: l := by
  simp [skip_ws, h]

theorem skip_ws_space (l : List Char) : skip_ws (' ' :: l) = skip_ws l := by
  simp [skip_ws, isWs]

theorem parseDictLoop_ws_nil {l : List Char} {out : List (String × String)}
    (hw : skip_ws l = []) :
    parseDictLoop out l = .error .unexpectedEndDict := by
  rw [parseDictLoop.eq_def]
  split
  · rfl
  · next c r heq => rw [hw] at heq; cases heq

theorem parseDictLoop_stop {l : List Char} {out : List (String × String)}
    {r : List Char} (hw : skip_ws l = rb :: r) :
    parseDictLoop out l = .ok out := by
  rw [parseDictLoop.eq_def]
  split
  · next heq => rw [hw] at heq; cases heq
  · next c2 r2 heq =>
      rw [hw] at heq
      injection heq with h1 h2
      subst h1
      simp

theorem parseDictLoop_key_err {l : List Char} {out : List (String × String)}
    {c : Char} {r : List Char} {e : PErr}
    (hw : skip_ws l = c :: r) (hc : c ≠ rb)
    (hk : read_key (c :: r) = .error e) :
    parseDictLoop out l = .error e := by
  rw [parseDictLoop.eq_def]
  split
  · next heq => rw [hw] at heq; cases heq
  · next c2 r2 heq =>
      rw [hw] at heq
      injection heq with h1 h2
      subst h1
      subst h2
      simp only [if_neg hc]
      split
      · next e2 heq2 => rw [hk] at heq2; injection heq2 with h3; rw [h3]
      · next key2 rest2 heq2 => rw [hk] at heq2; cases heq2

theorem parseDictLoop_val_err {l : List Char} {out : List (String × String)}
    {c : Char} {r key rest1 : List Char} {e : PErr}
    (hw : skip_ws l = c :: r) (hc : c ≠ rb)
    (hk : read_key (c :: r) = .ok (key, rest1))
    (hv : read_value rest1 = .error e) :
    parseDictLoop out l = .error e := by
  rw [parseDictLoop.eq_def]
  split
  · next heq => rw [hw] at heq; cases heq
  · next c2 r2 heq =>
      rw [hw] at heq
      injection heq with h1 h2
      subst h1
      subst h2
      simp only [if_neg hc]
      split
      · next e2 heq2 => rw [hk] at heq2; cases heq2
      · next key2 rest1' heq2 =>
          rw [hk] at heq2
          injection heq2 with h3
          injection h3 with h4 h5
          subst h4
          subst h5
          split
          · next e2 heq3 => rw [hv] at heq3; injection heq3 with h6; rw [h6]
          · next val2 rest2' heq3 => rw [hv] at heq3; cases heq3

theorem parseDictLoop_step_comma {l : List Char} {out : List (String × String)}
    {c : Char} {r key rest1 val rest2 r3 : List Char}
    (hw : skip_ws l = c :: r) (hc : c ≠ rb)
    (hk : read_key (c :: r) = .ok (key, rest1))
    (hv : read_value rest1 = .ok (val, rest2))
    (hw3 : skip_ws rest2 = ',' :: r3) :
    parseDictLoop out l =
      parseDictLoop (dictSet out (String.mk key) (String.mk val)) r3 := by
  rw [parseDictLoop.eq_def]
  split
  · next heq => rw [hw] at heq; cases heq
  · next c2 r2 heq =>
      rw [hw] at heq
      injection heq with h1 h2
      subst h1
      subst h2
      simp only [if_neg hc]
      split
      · next e2 heq2 => rw [hk] at heq2; cases heq2
      · next key2 rest1' heq2 =>
          rw [hk] at heq2
          injection heq2 with h3
          injection h3 with h4 h5
          subst h4
          subst h5
          split
          · next e2 heq3 => rw [hv] at heq3; cases heq3
          · next val2 rest2' heq3 =>
              rw [hv] at heq3
              injection heq3 with h6
              injection h6 with h7 h8
              subst h7
              subst h8
              split
              · next r3' heq4 =>
                  rw [hw3] at heq4
                  injection heq4 with h9 h10
                  subst h10
                  rfl
              · next hne =>
                  exact absurd hw3 (hne r3)

theorem parseDictLoop_step_other {l : List Char} {out : List (String × String)}
    {c : Char} {r key rest1 val rest2 l3 : List Char}
    (hw : skip_ws l = c :: r) (hc : c ≠ rb)
    (hk : read_key (c :: r) = .ok (key, rest1))
    (hv : read_value rest1 = .ok (val, rest2))
    (hw3 : skip_ws rest2 = l3) (hl3 : ∀ r3 : List Char, l3 ≠ ',' :: r3) :
    parseDictLoop out l =
      parseDictLoop (dictSet out (String.mk key) (String.mk val)) l3 := by
  rw [parseDictLoop.eq_def]
  split
  · next heq => rw [hw] at heq; cases heq
  · next c2 r2 heq =>
      rw [hw] at heq
      injection heq with h1 h2
      subst h1
      subst h2
      simp only [if_neg hc]
      split
      · next e2 heq2 => rw [hk] at heq2; cases heq2
      · next key2 rest1' heq2 =>
          rw [hk] at heq2
          injection heq2 with h3
          injection h3 with h4 h5
          subst h4
          subst h5
          split
          · next e2 heq3 => rw [hv] at heq3; cases heq3
          · next val2 rest2' heq3 =>
              rw [hv] at heq3
              injection heq3 with h6
              injection h6 with h7 h8
              subst h7
              subst h8
              split
              · next r3' heq4 =>
                  rw [hw3] at heq4
                  exact absurd heq4 (hl3 r3')
              · next hne =>
                  rw [hw3]

theorem head_ne_dq {c : Char} (l : List Char) (h : c ≠ dq) :
    (c :: l).head? ≠ some dq := by
  simp [h]

theorem fmb_skip_quoted (d : Int) (v rest : List Char)
    (hg : goodStr v = true) (hno3 : v = [] → rest.head? ≠ some dq) :
    find_matching_brace d (dq :: (v ++ dq :: rest)) =
      find_matching_brace d rest := by
  have hrq := read_quoted_dq v rest hg hno3
  exact find_matching_brace_quote_ok d (by decide) (by simpa using hrq)

theorem fmb_colon (d : Int) (r : List Char) :
    find_matching_brace d (':' :: r) = find_matching_brace d r :=
  find_matching_brace_other d r (by decide) (by decide) (by decide)

theorem fmb_space (d : Int) (r : List Char) :
    find_matching_brace d (' ' :: r) = find_matching_brace d r :=
  find_matching_brace_other d r (by decide) (by decide) (by decide)

theorem fmb_comma (d : Int) (r : List Char) :
    find_matching_brace d (',' :: r) = find_matching_brace d r :=
  find_matching_brace_other d r (by decide) (by decide) (by decide)

theorem fmb_qentries (d : Int) :
    ∀ (inner : List (List Char × List Char)) (rest : List Char),
      (inner.all fun kv => goodStr kv.1 && goodStr kv.2) = true →
      rest.head? ≠ some dq →
      find_matching_brace d (renderVal.renderQEntries inner ++ rest) =
        find_matching_brace d rest := by
  intro inner
  induction inner with
  | nil =>
      intro rest _ _
      simp [renderVal.renderQEntries]
  | cons kv es ih =>
      intro rest hg hrest
      simp only [List.all_cons, Bool.and_eq_true] at hg
      obtain ⟨⟨hk, hv⟩, hes⟩ := hg
      cases es with
      | nil =>
          have h1 : renderVal.renderQEntries [kv] ++ rest =
              dq :: (kv.1 ++ dq :: ':' :: ' ' ::
                (dq :: (kv.2 ++ dq :: rest))) := by
            simp [renderVal.renderQEntries]
          rw [h1]
          rw [fmb_skip_quoted d kv.1 _ hk (fun _ => head_ne_dq _ (by decide))]
          rw [fmb_colon, fmb_space]
          rw [fmb_skip_quoted d kv.2 _ hv (by intro _; exact hrest)]
      | cons e2 es' =>
          have h1 : renderVal.renderQEntries (kv :: e2 :: es') ++ rest =
              dq :: (kv.1 ++ dq :: ':' :: ' ' ::
                (dq :: (kv.2 ++ dq :: ',' :: ' ' ::
                  (renderVal.renderQEntries (e2 :: es') ++ rest)))) := by
            simp [renderVal.renderQEntries]
          rw [h1]
          rw [fmb_skip_quoted d kv.1 _ hk (fun _ => head_ne_dq _ (by decide))]
          rw [fmb_colon, fmb_space]
          rw [fmb_skip_quoted d kv.2 _ hv (fun _ => head_ne_dq _ (by decide))]
          rw [fmb_comma, fmb_space]
          exact ih rest hes hrest

theorem fmb_braced (inner : List (List Char × List Char)) (rest : List Char)
    (hg : (inner.all fun kv => goodStr kv.1 && goodStr kv.2) = true) :
    find_matching_brace 0
      (lb :: (renderVal.renderQEntries inner ++ (rb :: rest))) = .ok rest := by
  rw [find_matching_brace_lb]
  norm_num
  rw [fmb_qentries 1 inner (rb :: rest) hg (head_ne_dq _ (by decide))]
  rw [find_matching_brace_rb]
  norm_num

theorem take_append_exact {α : Type} (xs ys : List α) :
    (xs ++ ys).take ((xs ++ ys).length - ys.length) = xs := by
  have h : (xs ++ ys).length - ys.length = xs.length := by simp
  rw [h, List.take_left]

theorem read_key_rendered (k tail : List Char) (hk : goodStr k = true) :
    read_key (dq :: (k ++ dq :: ':' :: tail)) = .ok (k, tail) := by
  have hw : skip_ws (dq :: (k ++ dq :: ':' :: tail)) =
      dq :: (k ++ dq :: ':' :: tail) :=
    skip_ws_cons_not _ (by decide)
  have hrq : read_quoted (dq :: (k ++ dq :: ':' :: tail)) =
      .ok (k, ':' :: tail) := by
    have := read_quoted_dq k (':' :: tail) hk
      (fun _ => head_ne_dq _ (by decide))
    simpa using this
  have hw2 : skip_ws (':' :: tail) = ':' :: tail :=
    skip_ws_cons_not _ (by decide)
  exact read_key_ok hw (by decide) hrq hw2

theorem read_value_rendered (sv : SVal) (rest : List Char)
    (hg : goodVal sv = true) (hrest : rest.head? ≠ some dq) :
    read_value (' ' :: (renderVal sv ++ rest)) = .ok (parsedVal sv, rest) := by
  cases sv with
  | q v =>
      have hsh : renderVal (.q v) ++ rest = dq :: (v ++ dq :: rest) := by
        simp [renderVal]
      rw [hsh]
      have hw : skip_ws (' ' :: (dq :: (v ++ dq :: rest))) =
          dq :: (v ++ dq :: rest) := by
        rw [skip_ws_space]
        exact skip_ws_cons_not _ (by decide)
      rw [read_value_quoted hw (by decide)]
      exact read_quoted_dq v rest (by simpa [goodVal, goodStr] using hg)
        (by intro _; exact hrest)
  | braced inner =>
      have hsh : renderVal (.braced inner) ++ rest =
          lb :: (renderVal.renderQEntries inner ++ (rb :: rest)) := by
        simp [renderVal]
      rw [hsh]
      have hw : skip_ws
          (' ' :: (lb :: (renderVal.renderQEntries inner ++ (rb :: rest)))) =
          lb :: (renderVal.renderQEntries inner ++ (rb :: rest)) := by
        rw [skip_ws_space]
        exact skip_ws_cons_not _ (by decide)
      have hf := fmb_braced inner rest (by simpa [goodVal] using hg)
      rw [read_value_brace_ok hw hf]
      have hsp : lb :: (renderVal.renderQEntries inner ++ (rb :: rest)) =
          (lb :: renderVal.renderQEntries inner ++ [rb]) ++ rest := by
        simp
      have htk : (lb :: (renderVal.renderQEntries inner ++ (rb :: rest))).take
            ((lb :: (renderVal.renderQEntries inner ++ (rb :: rest))).length -
              rest.length) =
          lb :: renderVal.renderQEntries inner ++ [rb] := by
        rw [hsp]
        exact take_append_exact _ rest
      rw [htk]
      have hpv : parsedVal (.braced inner) =
          lb :: renderVal.renderQEntries inner ++ [rb] := by
        simp [parsedVal, renderVal]
      rw [hpv]

theorem parseDictLoop_congr_ws {l1 l2 : List Char}
    (out : List (String × String)) (h : skip_ws l1 = skip_ws l2) :
    parseDictLoop out l1 = parseDictLoop out l2 := by
  cases hw1 : skip_ws l1 with
  | nil =>
      have hw2 : skip_ws l2 = [] := by rw [← h, hw1]
      rw [parseDictLoop_ws_nil hw1, parseDictLoop_ws_nil hw2]
  | cons c r =>
      have hw2 : skip_ws l2 = c :: r := by rw [← h, hw1]
      by_cases hc : c = rb
      · subst hc
        rw [parseDictLoop_stop hw1, parseDictLoop_stop hw2]
      · cases hk : read_key (c :: r) with
        | error e =>
            rw [parseDictLoop_key_err hw1 hc hk, parseDictLoop_key_err hw2 hc hk]
        | ok p =>
            obtain ⟨key, rest1⟩ := p
            cases hv : read_value rest1 with
            | error e =>
                rw [parseDictLoop_val_err hw1 hc hk hv,
                  parseDictLoop_val_err hw2 hc hk hv]
            | ok p2 =>
                obtain ⟨val, rest2⟩ := p2
                cases hw3 : skip_ws rest2 with
                | nil =>
                    rw [parseDictLoop_step_other hw1 hc hk hv hw3
                        (fun r3 => List.noConfusion),
                      parseDictLoop_step_other hw2 hc hk hv hw3
                        (fun r3 => List.noConfusion)]
                | cons d r3 =>
                    by_cases hd : d = ','
                    · subst hd
                      rw [parseDictLoop_step_comma hw1 hc hk hv hw3,
                        parseDictLoop_step_comma hw2 hc hk hv hw3]
                    · have hl3 : ∀ r4 : List Char, d :: r3 ≠ ',' :: r4 := by
                        intro r4 hcontra
                        injection hcontra with h5 h6
                        exact hd h5
                      rw [parseDictLoop_step_other hw1 hc hk hv hw3 hl3,
                        parseDictLoop_step_other hw2 hc hk hv hw3 hl3]

theorem parseDictLoop_rendered :
    ∀ (es : List (List Char × SVal)) (out : List (String × String))
      (rest : List Char), goodEntries es = true →
      parseDictLoop out (renderEntries es ++ (rb :: rest)) =
        .ok (es.foldl
          (fun d e => dictSet d (String.mk e.1) (String.mk (parsedVal e.2)))
          out) := by
  intro es
  induction es with
  | nil =>
      intro out rest _
      have hsh : renderEntries [] ++ (rb :: rest) = rb :: rest := by
        simp [renderEntries]
      rw [hsh]
      rw [parseDictLoop_stop (skip_ws_cons_not _ (by decide))]
      simp
  | cons e es ih =>
      intro out rest hg
      simp only [goodEntries, List.all_cons, Bool.and_eq_true] at hg
      obtain ⟨⟨hk1, hv1⟩, hes⟩ := hg
      cases es with
      | nil =>
          have hsh : renderEntries [e] ++ (rb :: rest) =
              dq :: (e.1 ++ dq :: ':' ::
                (' ' :: (renderVal e.2 ++ (rb :: rest)))) := by
            simp [renderEntries, renderEntry]
          rw [hsh]
          have hw : skip_ws (dq :: (e.1 ++ dq :: ':' ::
              (' ' :: (renderVal e.2 ++ (rb :: rest))))) =
              dq :: (e.1 ++ dq :: ':' ::
                (' ' :: (renderVal e.2 ++ (rb :: rest)))) :=
            skip_ws_cons_not _ (by decide)
          have hk := read_key_rendered e.1
            (' ' :: (renderVal e.2 ++ (rb :: rest))) hk1
          have hv := read_value_rendered e.2 (rb :: rest) hv1
            (head_ne_dq _ (by decide))
          have hw3 : skip_ws (rb :: rest) = rb :: rest :=
            skip_ws_cons_not _ (by decide)
          have hl3 : ∀ r4 : List Char, rb :: rest ≠ ',' :: r4 := by
            intro r4 hcontra
            injection hcontra with h5 h6
            exact absurd h5 (by decide)
          rw [parseDictLoop_step_other hw (by decide) hk hv hw3 hl3]
          rw [parseDictLoop_stop hw3]
          simp
      | cons e2 es' =>
          have hsh : renderEntries (e :: e2 :: es') ++ (rb :: rest) =
              dq :: (e.1 ++ dq :: ':' ::
                (' ' :: (renderVal e.2 ++ (',' ::
                  (' ' :: (renderEntries (e2 :: es') ++ (rb :: rest))))))) := by
            simp [renderEntries, renderEntry]
          rw [hsh]
          have hw : skip_ws (dq :: (e.1 ++ dq :: ':' ::
              (' ' :: (renderVal e.2 ++ (',' ::
                (' ' :: (renderEntries (e2 :: es') ++ (rb :: rest)))))))) =
              dq :: (e.1 ++ dq :: ':' ::
                (' ' :: (renderVal e.2 ++ (',' ::
                  (' ' :: (renderEntries (e2 :: es') ++ (rb :: rest))))))) :=
            skip_ws_cons_not _ (by decide)
          have hk := read_key_rendered e.1
            (' ' :: (renderVal e.2 ++ (',' ::
              (' ' :: (renderEntries (e2 :: es') ++ (rb :: rest)))))) hk1
          have hv := read_value_rendered e.2
            (',' :: (' ' :: (renderEntries (e2 :: es') ++ (rb :: rest)))) hv1
            (head_ne_dq _ (by decide))
          have hw3 : skip_ws (',' ::
              (' ' :: (renderEntries (e2 :: es') ++ (rb :: rest)))) =
              ',' :: (' ' :: (renderEntries (e2 :: es') ++ (rb :: rest))) :=
            skip_ws_cons_not _ (by decide)
          rw [parseDictLoop_step_comma hw (by decide) hk hv hw3]
          rw [parseDictLoop_congr_ws _ (skip_ws_space _)]
          rw [ih _ rest (by simpa [goodEntries] using hes)]
          simp

theorem parse_shallow_dict_ws_nil {l : List Char} (hw : skip_ws l = []) :
    parse_shallow_dict l = .error .notADict := by
  unfold parse_shallow_dict
  rw [hw]

theorem parse_shallow_dict_lb {l r : List Char} (hw : skip_ws l = lb :: r) :
    parse_shallow_dict l = parseDictLoop [] r := by
  unfold parse_shallow_dict
  rw [hw]
  simp

theorem parse_shallow_dict_not_lb {l : List Char} {c : Char} {r : List Char}
    (hw : skip_ws l = c :: r) (hc : c ≠ lb) :
    parse_shallow_dict l = .error .notADict := by
  unfold parse_shallow_dict
  rw [hw]
  simp [hc]

theorem dictSet_append {α : Type} (d : List (String × α)) (k : String) (v : α)
    (h : d.any (fun e => e.1 = k) = false) :
    dictSet d k v = d ++ [(k, v)] := by
  simp [dictSet, h]

theorem find?_append {α : Type} (p : α → Bool) :
    ∀ l1 l2 : List α,
      (l1 ++ l2).find? p = (l1.find? p).orElse (fun _ => l2.find? p) := by
  intro l1 l2
  induction l1 with
  | nil => simp
  | cons a l1' ih =>
      cases ha : p a with
      | true => simp [List.find?_cons, ha, Option.orElse]
      | false => simp [List.find?_cons, ha, ih]

theorem find?_replace_same {α : Type} (k : String) (v : α) :
    ∀ d : List (String × α), d.any (fun e => e.1 = k) = true →
      (d.map (fun e => if e.1 = k then (k, v) else e)).find?
        (fun e => e.1 = k) = some (k, v) := by
  intro d
  induction d with
  | nil => intro h; simp at h
  | cons e d' ih =>
      intro h
      by_cases he : e.1 = k
      · simp [List.find?_cons, if_pos he]
      · simp only [List.map_cons, if_neg he]
        rw [List.find?_cons_of_neg _ (by simp [he])]
        apply ih
        simp only [List.any_cons, Bool.or_eq_true, decide_eq_true_eq] at h
        rcases h with h | h
        · exact absurd h he
        · exact h

theorem find?_replace_other {α : Type} (k k2 : String) (v : α) (hne : k2 ≠ k) :
    ∀ d : List (String × α),
      (d.map (fun e => if e.1 = k then (k, v) else e)).find?
        (fun e => e.1 = k2) = d.find? (fun e => e.1 = k2) := by
  intro d
  have hkk2 : ¬ k = k2 := fun h => hne h.symm
  induction d with
  | nil => simp
  | cons e d' ih =>
      by_cases he : e.1 = k
      · have he2 : ¬ e.1 = k2 := by rw [he]; exact hkk2
        simp only [List.map_cons, if_pos he]
        rw [List.find?_cons_of_neg _ (by simp [hkk2]),
          List.find?_cons_of_neg _ (by simp [he2])]
        exact ih
      · simp only [List.map_cons, if_neg he]
        by_cases he2 : e.1 = k2
        · rw [List.find?_cons_of_pos _ (by simp [he2]),
            List.find?_cons_of_pos _ (by simp [he2])]
        · rw [List.find?_cons_of_neg _ (by simp [he2]),
            List.find?_cons_of_neg _ (by simp [he2])]
          exact ih

theorem dictGet_dictSet_same {α : Type} (d : List (String × α)) (k : String)
    (v : α) : dictGet (dictSet d k v) k = some v := by
  unfold dictSet
  by_cases hmem : d.any (fun e => e.1 = k) = true
  · rw [if_pos hmem]
    unfold dictGet
    rw [find?_replace_same k v d hmem]
    rfl
  · rw [if_neg hmem]
    unfold dictGet
    rw [find?_append]
    have hnone : d.find? (fun e => e.1 = k) = none := by
      rw [List.find?_eq_none]
      intro e he
      simp only [decide_eq_true_eq]
      intro hcontra
      exact hmem (List.any_eq_true.mpr ⟨e, he, by simp [hcontra]⟩)
    rw [hnone]
    simp [Option.orElse, List.find?_cons]

theorem dictGet_dictSet_other {α : Type} (d : List (String × α)) (k : String)
    (v : α) (k2 : String) (hne : k2 ≠ k) :
    dictGet (dictSet d k v) k2 = dictGet d k2 := by
  unfold dictSet
  have hkk2 : ¬ k = k2 := fun h => hne h.symm
  by_cases hmem : d.any (fun e => e.1 = k) = true
  · rw [if_pos hmem]
    unfold dictGet
    rw [find?_replace_other k k2 v hne d]
  · rw [if_neg hmem]
    unfold dictGet
    rw [find?_append]
    have hlast : List.find? (fun e => e.1 = k2) [(k, v)] = none := by
      rw [List.find?_cons_of_neg _ (by simp [hkk2])]
      rfl
    rw [hlast]
    cases hf : d.find? (fun e => e.1 = k2) <;> simp [Option.orElse]

theorem foldl_dictSet_append {α : Type} :
    ∀ (ps : List (String × α)) (acc : List (String × α)),
      (ps.map Prod.fst).Nodup →
      (∀ p ∈ ps, acc.any (fun e => e.1 = p.1) = false) →
      ps.foldl (fun d e => dictSet d e.1 e.2) acc = acc ++ ps := by
  intro ps
  induction ps with
  | nil => intro acc _ _; simp
  | cons p ps' ih =>
      intro acc hnodup hfresh
      simp only [List.foldl_cons]
      rw [dictSet_append acc p.1 p.2 (hfresh p (by simp))]
      have hnodup' : (ps'.map Prod.fst).Nodup := by
        simp only [List.map_cons, List.nodup_cons] at hnodup
        exact hnodup.2
      have hhead : ∀ q ∈ ps', p.1 ≠ q.1 := by
        intro q hq
        simp only [List.map_cons, List.nodup_cons] at hnodup
        intro hcontra
        exact hnodup.1 (hcontra ▸ List.mem_map_of_mem Prod.fst hq)
      have hfresh' : ∀ q ∈ ps', (acc ++ [p]).any (fun e => e.1 = q.1) = false := by
        intro q hq
        rw [List.any_append]
        simp only [Bool.or_eq_false_iff]
        constructor
        · exact hfresh q (by simp [hq])
        · simp only [List.any_cons, List.any_nil, Bool.or_false,
            decide_eq_false_iff_not]
          exact hhead q hq
      rw [ih (acc ++ [p]) hnodup' hfresh']
      simp

/-- The value of the last occurrence of key `k` in an entry list. -/
def lastLookup {α : Type} (ps : List (String × α)) (k : String) : Option α :=
  (ps.reverse.find? (fun e => e.1 = k)).map (fun e => e.2)

theorem dictGet_foldl {α : Type} :
    ∀ (ps : List (String × α)) (acc : List (String × α)) (k : String),
      dictGet (ps.foldl (fun d e => dictSet d e.1 e.2) acc) k =
        (lastLookup ps k).or (dictGet acc k) := by
  intro ps
  induction ps with
  | nil => intro acc k; simp [lastLookup]
  | cons p ps' ih =>
      intro acc k
      simp only [List.foldl_cons]
      rw [ih (dictSet acc p.1 p.2) k]
      have hstep : dictGet (dictSet acc p.1 p.2) k =
          if k = p.1 then some p.2 else dictGet acc k := by
        by_cases hk : k = p.1
        · rw [if_pos hk, hk, dictGet_dictSet_same]
        · rw [if_neg hk, dictGet_dictSet_other acc p.1 p.2 k hk]
      rw [hstep]
      have hrev : (p :: ps').reverse = ps'.reverse ++ [p] := by simp
      simp only [lastLookup, hrev, find?_append]
      cases hf : ps'.reverse.find? (fun e => e.1 = k) with
      | some e => simp [Option.orElse]
      | none =>
          by_cases hk : k = p.1
          · have hp : List.find? (fun e => e.1 = k) [p] = some p := by
              have hp1 : p.1 = k := hk.symm
              simp [List.find?_cons, hp1]
            simp [Option.orElse, hp, if_pos hk]
          · have hp : List.find? (fun e => e.1 = k) [p] = none := by
              have hp1 : ¬ p.1 = k := fun h => hk h.symm
              simp [List.find?_cons, hp1]
            simp [Option.orElse, hp, if_neg hk]

theorem pyStrip_eq_self {l : List Char}
    (h1 : ∀ c, l.head? = some c → isPySpace c = false)
    (h2 : ∀ c, l.getLast? = some c → isPySpace c = false) :
    pyStrip l = l := by
  unfold pyStrip
  cases l with
  | nil => simp
  | cons a r =>
      have ha : isPySpace a = false := h1 a rfl
      rw [List.dropWhile_cons]
      simp only [ha, Bool.false_eq_true, if_false]
      cases hrevshape : (a :: r).reverse with
      | nil => simp at hrevshape
      | cons b rr =>
          have hb : isPySpace b = false := by
            apply h2
            rw [← List.head?_reverse, hrevshape]
            rfl
          rw [List.dropWhile_cons]
          simp only [hb, Bool.false_eq_true, if_false]
          rw [← hrevshape, List.reverse_reverse]

theorem renderEntries_asQ :
    ∀ args : List (List Char × List Char),
      renderEntries (asQ args) = renderVal.renderQEntries args := by
  intro args
  induction args with
  | nil => rfl
  | cons kv args' ih =>
      cases args' with
      | nil => simp [asQ, renderEntries, renderEntry, renderVal,
          renderVal.renderQEntries]
      | cons kv2 args'' =>
          simp only [asQ, List.map_cons] at ih ⊢
          rw [show renderEntries ((kv.1, SVal.q kv.2) ::
              (kv2.1, SVal.q kv2.2) :: args''.map (fun kv => (kv.1, SVal.q kv.2))) =
            renderEntry kv.1 (SVal.q kv.2) ++ ',' :: ' ' ::
              renderEntries ((kv2.1, SVal.q kv2.2) ::
                args''.map (fun kv => (kv.1, SVal.q kv.2))) from rfl]
          rw [ih]
          rw [show renderVal.renderQEntries (kv :: kv2 :: args'') =
            dq :: kv.1 ++ dq :: ':' :: ' ' :: dq :: kv.2 ++ dq :: ',' :: ' ' ::
              renderVal.renderQEntries (kv2 :: args'') from rfl]
          simp [renderEntry, renderVal]

theorem goodEntries_asQ (args : List (List Char × List Char)) :
    goodEntries (asQ args) =
      args.all (fun kv => goodStr kv.1 && goodStr kv.2) := by
  unfold goodEntries asQ
  induction args with
  | nil => rfl
  | cons kv args' ih =>
      simp only [List.map_cons, List.all_cons]
      rw [ih]
      rfl

theorem foldl_dict_entries (es : List (List Char × SVal))
    (hnodup : (es.map (fun e => String.mk e.1)).Nodup) :
    es.foldl
        (fun d e => dictSet d (String.mk e.1) (String.mk (parsedVal e.2))) [] =
      es.map (fun e => (String.mk e.1, String.mk (parsedVal e.2))) := by
  have h1 : es.foldl
      (fun d e => dictSet d (String.mk e.1) (String.mk (parsedVal e.2))) [] =
      (es.map (fun e => (String.mk e.1, String.mk (parsedVal e.2)))).foldl
        (fun d e => dictSet d e.1 e.2) [] := by
    rw [List.foldl_map]
  rw [h1]
  have hnodup2 : ((es.map
      (fun e => (String.mk e.1, String.mk (parsedVal e.2)))).map
        Prod.fst).Nodup := by
    rw [List.map_map]
    simpa [Function.comp] using hnodup
  rw [foldl_dictSet_append _ [] hnodup2 (by simp)]
  simp

theorem getLast?_append_single {α : Type} (l : List α) (a : α) :
    (l ++ [a]).getLast? = some a :=
  List.getLast?_concat l

theorem parseToolCallL_rendered
    (es : List (List Char × SVal)) (name : List Char)
    (args : List (List Char × List Char))
    (hg : goodEntries es = true)
    (hnodup : (es.map (fun e => String.mk e.1)).Nodup)
    (htool : dictGet
        (es.map (fun e => (String.mk e.1, String.mk (parsedVal e.2)))) "tool" =
      some (String.mk name))
    (hargs : dictGet
        (es.map (fun e => (String.mk e.1, String.mk (parsedVal e.2)))) "args" =
      some (String.mk (parsedVal (.braced args))))
    (hname : name ≠ []) (hstrip : pyStrip name = name)
    (hag : args.all (fun kv => goodStr kv.1 && goodStr kv.2) = true)
    (hanodup : (args.map (fun kv => String.mk kv.1)).Nodup) :
    parseToolCallL (lb :: (renderEntries es ++ [rb])) =
      .ok ⟨String.mk name,
        args.map (fun kv => (String.mk kv.1, String.mk kv.2))⟩ := by
  have houter : parse_shallow_dict (lb :: (renderEntries es ++ [rb])) =
      .ok (es.map (fun e => (String.mk e.1, String.mk (parsedVal e.2)))) := by
    rw [parse_shallow_dict_lb (skip_ws_cons_not _ (by decide))]
    rw [show renderEntries es ++ [rb] =
      renderEntries es ++ (rb :: []) from rfl]
    rw [parseDictLoop_rendered es [] [] hg]
    rw [foldl_dict_entries es hnodup]
  have hinner : parse_shallow_dict
      (lb :: (renderVal.renderQEntries args ++ [rb])) =
      .ok (args.map (fun kv => (String.mk kv.1, String.mk kv.2))) := by
    rw [parse_shallow_dict_lb (skip_ws_cons_not _ (by decide))]
    rw [show renderVal.renderQEntries args ++ [rb] =
      renderEntries (asQ args) ++ (rb :: []) from by rw [renderEntries_asQ]]
    rw [parseDictLoop_rendered (asQ args) [] []
      (by rw [goodEntries_asQ]; exact hag)]
    rw [foldl_dict_entries (asQ args)
      (by simpa [asQ, List.map_map, Function.comp] using hanodup)]
    simp [asQ, List.map_map, parsedVal, Function.comp]
  have hspanshape : parsedVal (.braced args) =
      lb :: (renderVal.renderQEntries args ++ [rb]) := by
    simp [parsedVal, renderVal]
  have hspan : pyStrip (lb :: (renderVal.renderQEntries args ++ [rb])) =
      lb :: (renderVal.renderQEntries args ++ [rb]) := by
    apply pyStrip_eq_self
    · intro c hc
      simp only [List.head?] at hc
      injection hc with hc2
      subst hc2
      decide
    · intro c hc
      rw [show lb :: (renderVal.renderQEntries args ++ [rb]) =
        (lb :: renderVal.renderQEntries args) ++ [rb] from by simp] at hc
      rw [getLast?_append_single] at hc
      injection hc with hc2
      subst hc2
      decide
  unfold parseToolCallL
  rw [houter]
  dsimp only []
  rw [htool, hargs]
  dsimp only []
  rw [hstrip]
  cases name with
  | nil => exact absurd rfl hname
  | cons a name' =>
      dsimp only [List.isEmpty]
      rw [hspanshape, hspan]
      dsimp only []
      rw [if_neg (by decide : ¬(false = true))]
      rw [if_pos rfl]
      rw [hinner]

theorem mkEnvelope_shape (name : List Char)
    (args : List (List Char × List Char)) :
    mkEnvelope name args =
      lb :: (renderEntries
        [("tool".data, .q name), ("args".data, .braced args)] ++ [rb]) := by
  simp [mkEnvelope]

/-- Helper: the serialized two-key envelope parses back to the original
pair under the stated well-formedness hypotheses. -/
theorem mkEnvelope_parse_ok (name : List Char) (args : List (List Char × List Char))
    (h1 : name ≠ []) (h2 : goodStr name = true) (h3 : pyStrip name = name)
    (h4 : args.all (fun kv => goodStr kv.1 && goodStr kv.2) = true)
    (h5 : (args.map (fun kv => String.mk kv.1)).Nodup) :
    parseToolCallL (mkEnvelope name args) =
      .ok ⟨String.mk name,
        args.map (fun kv => (String.mk kv.1, String.mk kv.2))⟩ := by
  rw [mkEnvelope_shape]
  apply parseToolCallL_rendered _ name args
  · simp only [goodEntries, List.all_cons, List.all_nil, goodVal,
      Bool.and_eq_true, Bool.and_true]
    refine ⟨⟨by decide, h2⟩, by decide, ?_⟩
    simpa [goodVal, List.all_eq_true] using h4
  · simp only [List.map_cons, List.map_nil]
    rw [show String.mk "tool".data = "tool" from rfl,
      show String.mk "args".data = "args" from rfl]
    decide
  · simp only [List.map_cons, List.map_nil]
    rw [show String.mk "tool".data = "tool" from rfl]
    simp [dictGet, List.find?_cons, parsedVal]
  · simp only [List.map_cons, List.map_nil]
    rw [show String.mk "tool".data = "tool" from rfl,
      show String.mk "args".data = "args" from rfl]
    simp [dictGet, List.find?_cons]
  · exact h1
  · exact h3
  · exact h4
  · exact h5

/-- C1 (amended): round-trip of the serialized envelope holds under the
hypotheses the code actually supports - the tool name is non-empty, free
of quote characters AND free of backslashes AND invariant under
`str.strip`, and the args mapping has pairwise-distinct keys with keys
and values free of quote characters and backslashes; then serializing as
the two-key envelope and running `parse_tool_call` yields exactly the
original pair. -/
theorem c1_round_trip (name : List Char) (args : List (List Char × List Char))
    (h1 : name ≠ []) (h2 : goodStr name = true) (h3 : pyStrip name = name)
    (h4 : args.all (fun kv => goodStr kv.1 && goodStr kv.2) = true)
    (h5 : (args.map (fun kv => String.mk kv.1)).Nodup) :
    parseToolCallL (mkEnvelope name args) =
      .ok ⟨String.mk name,
        args.map (fun kv => (String.mk kv.1, String.mk kv.2))⟩ :=
  mkEnvelope_parse_ok name args h1 h2 h3 h4 h5

theorem dictGet_append_mid {α : Type} (l1 l2 : List (String × α))
    (k : String) (v : α) (h : ∀ e ∈ l1, e.1 ≠ k) :
    dictGet (l1 ++ (k, v) :: l2) k = some v := by
  unfold dictGet
  rw [find?_append]
  have hnone : l1.find? (fun e => e.1 = k) = none := by
    rw [List.find?_eq_none]
    intro e he
    simpa using h e he
  rw [hnone]
  rw [List.find?_cons_of_pos _ (by simp)]
  rfl

theorem nodup_mid_keys {A B C : List String} {x y : String}
    (hxy : x ≠ y) (hnodup : (A ++ x :: (B ++ y :: C)).Nodup) :
    x ∉ A ∧ y ∉ A ∧ y ∉ B := by
  rw [List.nodup_append] at hnodup
  obtain ⟨hA, hrest, hdisj⟩ := hnodup
  rw [List.nodup_cons] at hrest
  obtain ⟨hxmem, hBC⟩ := hrest
  rw [List.nodup_append] at hBC
  obtain ⟨hB, hyC, hdisj2⟩ := hBC
  rw [List.nodup_cons] at hyC
  refine ⟨?_, ?_, ?_⟩
  · intro hmem
    exact absurd (by simp) (fun h => hdisj hmem h)
  · intro hmem
    exact absurd (by simp) (fun h => hdisj hmem h)
  · intro hmem
    exact hdisj2 hmem (by simp)
/-- C10: an envelope whose outer dict contains `tool` and `args` together
with any additional (well-formed, distinct) keys parses successfully; the
extra keys are silently ignored and the returned envelope carries only
the tool name and the parsed args. -/
theorem c10_extra_keys
    (name : List Char) (args : List (List Char × List Char))
    (pre mid post : List (List Char × SVal))
    (hg : goodEntries (pre ++ ("tool".data, SVal.q name) ::
      (mid ++ ("args".data, SVal.braced args) :: post)) = true)
    (hnodup : ((pre ++ ("tool".data, SVal.q name) ::
      (mid ++ ("args".data, SVal.braced args) :: post)).map
        (fun e => String.mk e.1)).Nodup)
    (hname : name ≠ []) (hstrip : pyStrip name = name)
    (hag : args.all (fun kv => goodStr kv.1 && goodStr kv.2) = true)
    (hanodup : (args.map (fun kv => String.mk kv.1)).Nodup) :
    parseToolCallL (lb :: (renderEntries
        (pre ++ ("tool".data, SVal.q name) ::
          (mid ++ ("args".data, SVal.braced args) :: post)) ++ [rb])) =
      .ok ⟨String.mk name,
        args.map (fun kv => (String.mk kv.1, String.mk kv.2))⟩ := by
  have hkeys : ((pre.map (fun e => String.mk e.1)) ++ "tool" ::
      ((mid.map (fun e => String.mk e.1)) ++ "args" ::
        (post.map (fun e => String.mk e.1)))).Nodup := by
    have h := hnodup
    simp only [List.map_append, List.map_cons] at h
    exact h
  have hmid := nodup_mid_keys (by decide : ("tool" : String) ≠ "args") hkeys
  apply parseToolCallL_rendered _ name args hg hnodup ?_ ?_ hname hstrip hag
    hanodup
  · simp only [List.map_append, List.map_cons]
    apply dictGet_append_mid
    intro e he
    obtain ⟨p, hp, rfl⟩ := List.mem_map.mp he
    intro hcontra
    apply hmid.1
    have hkey : String.mk p.1 = "tool" := hcontra
    exact hkey ▸ List.mem_map_of_mem (fun e => String.mk e.1) hp
  · simp only [List.map_append, List.map_cons]
    rw [show (pre.map (fun e => (String.mk e.1, String.mk (parsedVal e.2)))) ++
        ("tool", String.mk (parsedVal (SVal.q name))) ::
          ((mid.map (fun e => (String.mk e.1, String.mk (parsedVal e.2)))) ++
            ("args", String.mk (parsedVal (SVal.braced args))) ::
              (post.map (fun e => (String.mk e.1, String.mk (parsedVal e.2))))) =
      ((pre.map (fun e => (String.mk e.1, String.mk (parsedVal e.2)))) ++
        ("tool", String.mk (parsedVal (SVal.q name))) ::
          (mid.map (fun e => (String.mk e.1, String.mk (parsedVal e.2))))) ++
        ("args", String.mk (parsedVal (SVal.braced args))) ::
          (post.map (fun e => (String.mk e.1, String.mk (parsedVal e.2))))
      from by simp]
    apply dictGet_append_mid
    intro e he
    rw [List.mem_append] at he
    rcases he with he | he
    · obtain ⟨p, hp, rfl⟩ := List.mem_map.mp he
      intro hcontra
      apply hmid.2.1
      have hkey : String.mk p.1 = "args" := hcontra
      exact hkey ▸ List.mem_map_of_mem (fun e => String.mk e.1) hp
    · rw [List.mem_cons] at he
      rcases he with he | he
      · rw [he]
        show ("tool" : String) ≠ "args"
        decide
      · obtain ⟨p, hp, rfl⟩ := List.mem_map.mp he
        intro hcontra
        apply hmid.2.2
        have hkey : String.mk p.1 = "args" := hcontra
        exact hkey ▸ List.mem_map_of_mem (fun e => String.mk e.1) hp
/-- The error kinds that `_parse_shallow_dict` (and the lexical helpers it
calls) can raise; the envelope-level kinds of `parse_tool_call` and the
`IndexError` marker are excluded. -/
def dictErr : PErr → Bool
  | .unterminatedTriple => true
  | .unterminatedString => true
  | .expectedQuote => true
  | .unbalancedBraces => true
  | .unquotedKey => true
  | .missingColon => true
  | .unexpectedEndValue => true
  | .notADict => true
  | .unexpectedEndDict => true
  | _ => false

theorem readTriple_err (q : Char) :
    ∀ l {e : PErr}, readTriple q l = .error e → dictErr e = true
  | a :: b :: c :: r, e, h => by
      by_cases hq : a = q ∧ b = q ∧ c = q
      · simp only [readTriple, if_pos hq] at h
        cases h
      · simp only [readTriple, if_neg hq] at h
        cases hrec : readTriple q (b :: c :: r) with
        | error e2 =>
            rw [hrec] at h
            injection h with h2
            subst h2
            exact readTriple_err q (b :: c :: r) hrec
        | ok p =>
            obtain ⟨co, re⟩ := p
            rw [hrec] at h
            cases h
  | [], e, h => by
      rw [show readTriple q [] = .error .unterminatedTriple from rfl] at h
      injection h with h2
      subst h2
      rfl
  | [a], e, h => by
      rw [show readTriple q [a] = .error .unterminatedTriple from rfl] at h
      injection h with h2
      subst h2
      rfl
  | [a, b], e, h => by
      rw [show readTriple q [a, b] = .error .unterminatedTriple from rfl] at h
      injection h with h2
      subst h2
      rfl

theorem readEscaped_err (q : Char) :
    ∀ l {e : PErr}, readEscaped q l = .error e → dictErr e = true
  | [], e, h => by
      injection h with h2
      subst h2
      rfl
  | c :: r, e, h => by
      by_cases hbs : c = bs
      · rw [readEscaped.eq_def] at h
        simp only [if_pos hbs] at h
        cases r with
        | nil =>
            injection h with h2
            subst h2
            rfl
        | cons d r2 =>
            have h2 : (match readEscaped q r2 with
                | .error e => (.error e : PRes (List Char × List Char))
                | .ok (out, rest) => .ok (d :: out, rest)) = .error e := h
            cases hrec : readEscaped q r2 with
            | error e2 =>
                rw [hrec] at h2
                injection h2 with h3
                subst h3
                exact readEscaped_err q r2 hrec
            | ok p =>
                obtain ⟨co, re⟩ := p
                rw [hrec] at h2
                cases h2
      · by_cases hq : c = q
        · rw [readEscaped.eq_def] at h
          simp only [if_neg hbs, if_pos hq] at h
          cases h
        · rw [readEscaped.eq_def] at h
          simp only [if_neg hbs, if_neg hq] at h
          cases hrec : readEscaped q r with
          | error e2 =>
              rw [hrec] at h
              injection h with h3
              subst h3
              exact readEscaped_err q r hrec
          | ok p =>
              obtain ⟨co, re⟩ := p
              rw [hrec] at h
              cases h

theorem read_quoted_err :
    ∀ {l : List Char} {e : PErr}, l ≠ [] → read_quoted l = .error e →
      dictErr e = true := by
  intro l e hne h
  match l with
  | [] => exact absurd rfl hne
  | a :: b :: c :: r =>
      simp only [read_quoted] at h
      split at h
      · exact readTriple_err a r h
      · split at h
        · exact readEscaped_err a (b :: c :: r) h
        · injection h with h2
          subst h2
          rfl
  | [c] =>
      simp only [read_quoted] at h
      split at h
      · exact readEscaped_err c [] h
      · injection h with h2
        subst h2
        rfl
  | [c, d] =>
      simp only [read_quoted] at h
      split at h
      · exact readEscaped_err c [d] h
      · injection h with h2
        subst h2
        rfl

theorem find_matching_brace_err :
    ∀ (d : Int) (l : List Char) {e : PErr},
      find_matching_brace d l = .error e → dictErr e = true
  | d, [], e, h => by
      rw [find_matching_brace_nil] at h
      injection h with h2
      subst h2
      rfl
  | d, c :: r, e, h => by
      by_cases hlb : c = lb
      · subst hlb
        rw [find_matching_brace_lb] at h
        exact find_matching_brace_err (d + 1) r h
      · by_cases hrb : c = rb
        · subst hrb
          rw [find_matching_brace_rb] at h
          by_cases hd : d - 1 = 0
          · rw [if_pos hd] at h
            cases h
          · rw [if_neg hd] at h
            exact find_matching_brace_err (d - 1) r h
        · by_cases hq : isQuote c
          · cases hrq : read_quoted (c :: r) with
            | error e2 =>
                rw [find_matching_brace_quote_err d hq hrq] at h
                injection h with h2
                subst h2
                exact read_quoted_err (by simp) hrq
            | ok p =>
                obtain ⟨p1, rest0⟩ := p
                rw [find_matching_brace_quote_ok d hq hrq] at h
                exact find_matching_brace_err d rest0 h
          · rw [find_matching_brace_other d r hlb hrb (by simpa using hq)] at h
            exact find_matching_brace_err d r h
termination_by d l => l.length
decreasing_by all_goals first
  | exact read_quoted_length hrq
  | simp

theorem scanScalar_err :
    ∀ (d : Int) (l : List Char) {e : PErr},
      scanScalar d l = .error e → dictErr e = true
  | d, [], e, h => by
      rw [scanScalar_nil] at h
      cases h
  | d, c :: r, e, h => by
      by_cases hq : isQuote c
      · cases hrq : read_quoted (c :: r) with
        | error e2 =>
            rw [scanScalar_quote_err d hq hrq] at h
            injection h with h2
            subst h2
            exact read_quoted_err (by simp) hrq
        | ok p =>
            obtain ⟨p1, rest0⟩ := p
            rw [scanScalar_quote_ok d hq hrq] at h
            exact scanScalar_err d rest0 h
      · have hq' : isQuote c = false := by simpa using hq
        by_cases hlb : c = lb
        · subst hlb
          rw [scanScalar_lb] at h
          exact scanScalar_err (d + 1) r h
        · by_cases hrb : c = rb
          · subst hrb
            rw [scanScalar_rb] at h
            by_cases hd : d = 0
            · rw [if_pos hd] at h
              cases h
            · rw [if_neg hd] at h
              exact scanScalar_err (d - 1) r h
          · by_cases hcm : c = ','
            · subst hcm
              rw [scanScalar_comma] at h
              by_cases hd : d = 0
              · rw [if_pos hd] at h
                cases h
              · rw [if_neg hd] at h
                exact scanScalar_err d r h
            · rw [scanScalar_other d r hq' hlb hrb hcm] at h
              exact scanScalar_err d r h
termination_by d l => l.length
decreasing_by all_goals first
  | exact read_quoted_length hrq
  | simp

theorem read_key_err {l : List Char} {e : PErr} (hne : skip_ws l ≠ [])
    (h : read_key l = .error e) : dictErr e = true := by
  cases hw : skip_ws l with
  | nil => exact absurd hw hne
  | cons c r =>
      cases hq : isQuote c with
      | false =>
          rw [read_key_unquoted hw hq] at h
          injection h with h2
          subst h2
          rfl
      | true =>
          cases hrq : read_quoted (c :: r) with
          | error e2 =>
              rw [read_key_quote_err hw hq hrq] at h
              injection h with h2
              subst h2
              exact read_quoted_err (by simp) hrq
          | ok p =>
              obtain ⟨key, rest1⟩ := p
              cases hw2 : skip_ws rest1 with
              | nil =>
                  rw [read_key_colon_nil hw hq hrq hw2] at h
                  injection h with h2
                  subst h2
                  rfl
              | cons d r2 =>
                  by_cases hd : d = ':'
                  · subst hd
                    rw [read_key_ok hw hq hrq hw2] at h
                    cases h
                  · rw [read_key_colon_bad hw hq hrq hw2 hd] at h
                    injection h with h2
                    subst h2
                    rfl

theorem read_value_err {l : List Char} {e : PErr}
    (h : read_value l = .error e) : dictErr e = true := by
  cases hw : skip_ws l with
  | nil =>
      rw [read_value_ws_nil hw] at h
      injection h with h2
      subst h2
      rfl
  | cons c r =>
      cases hq : isQuote c with
      | true =>
          rw [read_value_quoted hw hq] at h
          exact read_quoted_err (by simp) h
      | false =>
          by_cases hlb : c = lb
          · subst hlb
            cases hf : find_matching_brace 0 (lb :: r) with
            | error e2 =>
                rw [read_value_brace_err hw hf] at h
                injection h with h2
                subst h2
                exact find_matching_brace_err 0 (lb :: r) hf
            | ok rest2 =>
                rw [read_value_brace_ok hw hf] at h
                cases h
          · cases hs : scanScalar 0 (c :: r) with
            | error e2 =>
                rw [read_value_scalar_err hw hq hlb hs] at h
                injection h with h2
                subst h2
                exact scanScalar_err 0 (c :: r) hs
            | ok rest2 =>
                rw [read_value_scalar_ok hw hq hlb hs] at h
                cases h

theorem parseDictLoop_err :
    ∀ (out : List (String × String)) (l : List Char) {e : PErr},
      parseDictLoop out l = .error e → dictErr e = true
  | out, l, e, h => by
      cases hw : skip_ws l with
      | nil =>
          rw [parseDictLoop_ws_nil hw] at h
          injection h with h2
          subst h2
          rfl
      | cons c r =>
          by_cases hc : c = rb
          · subst hc
            rw [parseDictLoop_stop hw] at h
            cases h
          · have hcr : skip_ws (c :: r) = c :: r := by
              rw [← hw, skip_ws_idem]
            cases hk : read_key (c :: r) with
            | error e2 =>
                rw [parseDictLoop_key_err hw hc hk] at h
                injection h with h2
                subst h2
                exact read_key_err (by rw [hcr]; simp) hk
            | ok p =>
                obtain ⟨key, rest1⟩ := p
                cases hv : read_value rest1 with
                | error e2 =>
                    rw [parseDictLoop_val_err hw hc hk hv] at h
                    injection h with h2
                    subst h2
                    exact read_value_err hv
                | ok p2 =>
                    obtain ⟨val, rest2⟩ := p2
                    cases hw3 : skip_ws rest2 with
                    | nil =>
                        rw [parseDictLoop_step_other hw hc hk hv hw3
                          (fun r3 => List.noConfusion)] at h
                        exact parseDictLoop_err _ [] h
                    | cons d r3 =>
                        by_cases hd : d = ','
                        · subst hd
                          rw [parseDictLoop_step_comma hw hc hk hv hw3] at h
                          exact parseDictLoop_err _ r3 h
                        · have hl3 : ∀ r4 : List Char, d :: r3 ≠ ',' :: r4 := by
                            intro r4 hcontra
                            injection hcontra with h5 h6
                            exact hd h5
                          rw [parseDictLoop_step_other hw hc hk hv hw3 hl3] at h
                          exact parseDictLoop_err _ (d :: r3) h
termination_by out l => l.length
decreasing_by
  all_goals
    have h0 : (skip_ws l).length ≤ l.length := skip_ws_length_le l
    rw [hw] at h0
    have h1 : rest1.length < (c :: r).length := read_key_length hk
    have h2 : rest2.length ≤ rest1.length := read_value_length hv
    have h3 : (skip_ws rest2).length ≤ rest2.length := skip_ws_length_le rest2
    rw [hw3] at h3
    simp only [List.length_cons] at h0 h1 h3 ⊢
    omega

theorem parse_shallow_dict_err {l : List Char} {e : PErr}
    (h : parse_shallow_dict l = .error e) : dictErr e = true := by
  cases hw : skip_ws l with
  | nil =>
      rw [parse_shallow_dict_ws_nil hw] at h
      injection h with h2
      subst h2
      rfl
  | cons c r =>
      by_cases hc : c = lb
      · subst hc
        rw [parse_shallow_dict_lb hw] at h
        exact parseDictLoop_err [] r h
      · rw [parse_shallow_dict_not_lb hw hc] at h
        injection h with h2
        subst h2
        rfl

theorem parseToolCallL_not_index {l : List Char} {e : PErr}
    (h : parseToolCallL l = .error e) : e ≠ .index := by
  unfold parseToolCallL at h
  cases hps : parse_shallow_dict l with
  | error e2 =>
      rw [hps] at h
      injection h with h2
      subst h2
      have hde := parse_shallow_dict_err hps
      intro hcontra
      subst hcontra
      simp [dictErr] at hde
  | ok top =>
      rw [hps] at h
      dsimp only [] at h
      cases hg1 : dictGet top "tool" with
      | none =>
          rw [hg1] at h
          cases hg2 : dictGet top "args" with
          | none =>
              rw [hg2] at h
              injection h with h2
              subst h2
              intro hcontra
              cases hcontra
          | some argsVal =>
              rw [hg2] at h
              injection h with h2
              subst h2
              intro hcontra
              cases hcontra
      | some toolVal =>
          rw [hg1] at h
          cases hg2 : dictGet top "args" with
          | none =>
              rw [hg2] at h
              injection h with h2
              subst h2
              intro hcontra
              cases hcontra
          | some argsVal =>
              rw [hg2] at h
              dsimp only [] at h
              by_cases hemp : (pyStrip toolVal.data).isEmpty = true
              · rw [if_pos hemp] at h
                injection h with h2
                subst h2
                intro hcontra
                cases hcontra
              · rw [if_neg hemp] at h
                cases harg : pyStrip argsVal.data with
                | nil =>
                    rw [harg] at h
                    dsimp only [] at h
                    injection h with h2
                    subst h2
                    intro hcontra
                    cases hcontra
                | cons c cr =>
                    rw [harg] at h
                    dsimp only [] at h
                    by_cases hlb : c = lb
                    · rw [if_pos hlb] at h
                      cases hin : parse_shallow_dict (c :: cr) with
                      | error e3 =>
                          rw [hin] at h
                          injection h with h2
                          subst h2
                          have hde := parse_shallow_dict_err hin
                          intro hcontra
                          subst hcontra
                          simp [dictErr] at hde
                      | ok argsDict =>
                          rw [hin] at h
                          cases h
                    · rw [if_neg hlb] at h
                      injection h with h2
                      subst h2
                      intro hcontra
                      cases hcontra

theorem parseToolCallL_missingKeys_iff (l : List Char) :
    parseToolCallL l = .error .missingKeys ↔
      ∃ top, parse_shallow_dict l = .ok top ∧
        (dictGet top "tool" = none ∨ dictGet top "args" = none) := by
  constructor
  · intro h
    unfold parseToolCallL at h
    cases hps : parse_shallow_dict l with
    | error e2 =>
        rw [hps] at h
        injection h with h2
        have hde := parse_shallow_dict_err hps
        rw [h2] at hde
        simp [dictErr] at hde
    | ok top =>
        refine ⟨top, rfl, ?_⟩
        rw [hps] at h
        dsimp only [] at h
        cases hg1 : dictGet top "tool" with
        | none => exact Or.inl rfl
        | some toolVal =>
            cases hg2 : dictGet top "args" with
            | none => exact Or.inr rfl
            | some argsVal =>
                exfalso
                rw [hg1, hg2] at h
                dsimp only [] at h
                by_cases hemp : (pyStrip toolVal.data).isEmpty = true
                · rw [if_pos hemp] at h
                  injection h with h2
                  cases h2
                · rw [if_neg hemp] at h
                  cases harg : pyStrip argsVal.data with
                  | nil =>
                      rw [harg] at h
                      dsimp only [] at h
                      injection h with h2
                      cases h2
                  | cons c cr =>
                      rw [harg] at h
                      dsimp only [] at h
                      by_cases hlb : c = lb
                      · rw [if_pos hlb] at h
                        cases hin : parse_shallow_dict (c :: cr) with
                        | error e3 =>
                            rw [hin] at h
                            injection h with h2
                            have hde := parse_shallow_dict_err hin
                            rw [h2] at hde
                            simp [dictErr] at hde
                        | ok argsDict =>
                            rw [hin] at h
                            cases h
                      · rw [if_neg hlb] at h
                        injection h with h2
                        cases h2
  · intro ⟨top, hps, hnone⟩
    unfold parseToolCallL
    rw [hps]
    dsimp only []
    rcases hnone with hn | hn
    · rw [hn]
    · rw [hn]
      cases dictGet top "tool" <;> rfl

/-!
Fuel-indexed reformulations of the well-founded-recursive scanners.
They are proven pointwise equal to the embedding (given enough fuel) and
exist only so that concrete inputs can be evaluated by kernel reduction;
the embedding itself is the fuel-free version above.
-/

/-- Fuel-indexed `find_matching_brace`. -/
def fmbF : Nat → Int → List Char → PRes (List Char)
  | 0, _, _ => .error .unbalancedBraces
  | _ + 1, _, [] => .error .unbalancedBraces
  | fuel + 1, depth, c :: r =>
      if c = lb then fmbF fuel (depth + 1) r
      else if c = rb then
        if depth - 1 = 0 then .ok r
        else fmbF fuel (depth - 1) r
      else if isQuote c then
        match read_quoted (c :: r) with
        | .error e => .error e
        | .ok (_, rest) => fmbF fuel depth rest
      else fmbF fuel depth r

/-- Fuel-indexed `scanScalar`. -/
def scanF : Nat → Int → List Char → PRes (List Char)
  | 0, _, _ => .error .unbalancedBraces
  | _ + 1, _, [] => .ok []
  | fuel + 1, depth, c :: r =>
      if isQuote c then
        match read_quoted (c :: r) with
        | .error e => .error e
        | .ok (_, rest) => scanF fuel depth rest
      else if c = lb then scanF fuel (depth + 1) r
      else if c = rb then
        if depth = 0 then .ok (c :: r)
        else scanF fuel (depth - 1) r
      else if c = ',' then
        if depth = 0 then .ok (c :: r)
        else scanF fuel depth r
      else scanF fuel depth r

theorem fmb_eq_F :
    ∀ (fuel : Nat) (d : Int) (l : List Char), l.length < fuel →
      find_matching_brace d l = fmbF fuel d l := by
  intro fuel
  induction fuel with
  | zero => intro d l h; simp at h
  | succ fuel ih =>
      intro d l h
      cases l with
      | nil => rw [find_matching_brace_nil]; rfl
      | cons c r =>
          simp only [List.length_cons, Nat.succ_lt_succ_iff] at h
          by_cases hlb : c = lb
          · subst hlb
            rw [find_matching_brace_lb]
            rw [show fmbF (fuel + 1) d (lb :: r) = fmbF fuel (d + 1) r from by
              simp [fmbF]]
            exact ih (d + 1) r h
          · by_cases hrb : c = rb
            · subst hrb
              rw [find_matching_brace_rb]
              rw [show fmbF (fuel + 1) d (rb :: r) =
                  if d - 1 = 0 then .ok r else fmbF fuel (d - 1) r from by
                simp [fmbF, show rb ≠ lb from by decide]]
              by_cases hd : d - 1 = 0
              · rw [if_pos hd, if_pos hd]
              · rw [if_neg hd, if_neg hd]
                exact ih (d - 1) r h
            · by_cases hq : isQuote c
              · cases hrq : read_quoted (c :: r) with
                | error e =>
                    rw [find_matching_brace_quote_err d hq hrq]
                    rw [fmbF.eq_def]
                    simp only [hlb, hrb, hq, if_false, if_true]
                    rw [hrq]
                | ok p =>
                    obtain ⟨p1, rest⟩ := p
                    rw [find_matching_brace_quote_ok d hq hrq]
                    rw [fmbF.eq_def]
                    simp only [hlb, hrb, hq, if_false, if_true]
                    rw [hrq]
                    have hlen := read_quoted_length hrq
                    simp only [List.length_cons] at hlen
                    exact ih d rest (by omega)
              · have hq' : isQuote c = false := by simpa using hq
                rw [find_matching_brace_other d r hlb hrb hq']
                rw [show fmbF (fuel + 1) d (c :: r) = fmbF fuel d r from by
                  simp [fmbF, hlb, hrb, hq']]
                exact ih d r h

theorem scan_eq_F :
    ∀ (fuel : Nat) (d : Int) (l : List Char), l.length < fuel →
      scanScalar d l = scanF fuel d l := by
  intro fuel
  induction fuel with
  | zero => intro d l h; simp at h
  | succ fuel ih =>
      intro d l h
      cases l with
      | nil => rw [scanScalar_nil]; rfl
      | cons c r =>
          simp only [List.length_cons, Nat.succ_lt_succ_iff] at h
          by_cases hq : isQuote c
          · cases hrq : read_quoted (c :: r) with
            | error e =>
                rw [scanScalar_quote_err d hq hrq]
                rw [scanF.eq_def]
                simp only [hq, if_true]
                rw [hrq]
            | ok p =>
                obtain ⟨p1, rest⟩ := p
                rw [scanScalar_quote_ok d hq hrq]
                rw [scanF.eq_def]
                simp only [hq, if_true]
                rw [hrq]
                have hlen := read_quoted_length hrq
                simp only [List.length_cons] at hlen
                exact ih d rest (by omega)
          · have hq' : isQuote c = false := by simpa using hq
            by_cases hlb : c = lb
            · subst hlb
              rw [scanScalar_lb]
              rw [show scanF (fuel + 1) d (lb :: r) = scanF fuel (d + 1) r from by
                simp [scanF, hq']]
              exact ih (d + 1) r h
            · by_cases hrb : c = rb
              · subst hrb
                rw [scanScalar_rb]
                rw [show scanF (fuel + 1) d (rb :: r) =
                    if d = 0 then .ok (rb :: r) else scanF fuel (d - 1) r from by
                  simp [scanF, hq', show rb ≠ lb from by decide]]
                by_cases hd : d = 0
                · rw [if_pos hd, if_pos hd]
                · rw [if_neg hd, if_neg hd]
                  exact ih (d - 1) r h
              · by_cases hcm : c = ','
                · subst hcm
                  rw [scanScalar_comma]
                  rw [show scanF (fuel + 1) d (',' :: r) =
                      if d = 0 then .ok (',' :: r) else scanF fuel d r from by
                    simp [scanF, hq', show ',' ≠ lb from by decide,
                      show ',' ≠ rb from by decide]]
                  by_cases hd : d = 0
                  · rw [if_pos hd, if_pos hd]
                  · rw [if_neg hd, if_neg hd]
                    exact ih d r h
                · rw [scanScalar_other d r hq' hlb hrb hcm]
                  rw [show scanF (fuel + 1) d (c :: r) = scanF fuel d r from by
                    simp [scanF, hq', hlb, hrb, hcm]]
                  exact ih d r h

/-- Fuel-indexed `_read_value`. -/
def read_valueF (fuel : Nat) (l : List Char) : PRes (List Char × List Char) :=
  match skip_ws l with
  | [] => .error .unexpectedEndValue
  | c :: r =>
      if isQuote c then read_quoted (c :: r)
      else if c = lb then
        match fmbF fuel 0 (c :: r) with
        | .error e => .error e
        | .ok rest => .ok ((c :: r).take ((c :: r).length - rest.length), rest)
      else
        match scanF fuel 0 (c :: r) with
        | .error e => .error e
        | .ok rest =>
            .ok (pyStrip ((c :: r).take ((c :: r).length - rest.length)), rest)

theorem read_value_eq_F (fuel : Nat) (l : List Char) (h : l.length < fuel) :
    read_value l = read_valueF fuel l := by
  unfold read_value read_valueF
  cases hw : skip_ws l with
  | nil => rfl
  | cons c r =>
      have hlen : (c :: r).length < fuel := by
        have := skip_ws_length_le l
        rw [hw] at this
        omega
      dsimp only []
      rw [fmb_eq_F fuel 0 (c :: r) hlen, scan_eq_F fuel 0 (c :: r) hlen]

/-- Fuel-indexed `_parse_shallow_dict` loop. -/
def pdlF : Nat → List (String × String) → List Char →
    PRes (List (String × String))
  | 0, _, _ => .error .unexpectedEndDict
  | fuel + 1, out, l =>
      match skip_ws l with
      | [] => .error .unexpectedEndDict
      | c :: r =>
          if c = rb then .ok out
          else
            match read_key (c :: r) with
            | .error e => .error e
            | .ok (key, rest1) =>
                match read_valueF fuel rest1 with
                | .error e => .error e
                | .ok (val, rest2) =>
                    let out2 := dictSet out (String.mk key) (String.mk val)
                    match skip_ws rest2 with
                    | ',' :: r3 => pdlF fuel out2 r3
                    | l3 => pdlF fuel out2 l3

theorem pdl_eq_F :
    ∀ (fuel : Nat) (out : List (String × String)) (l : List Char),
      l.length < fuel → parseDictLoop out l = pdlF fuel out l := by
  intro fuel
  induction fuel with
  | zero => intro out l h; simp at h
  | succ fuel ih =>
      intro out l h
      rw [show pdlF (fuel + 1) out l =
        (match skip_ws l with
        | [] => .error .unexpectedEndDict
        | c :: r =>
            if c = rb then .ok out
            else
              match read_key (c :: r) with
              | .error e => .error e
              | .ok (key, rest1) =>
                  match read_valueF fuel rest1 with
                  | .error e => .error e
                  | .ok (val, rest2) =>
                      let out2 := dictSet out (String.mk key) (String.mk val)
                      match skip_ws rest2 with
                      | ',' :: r3 => pdlF fuel out2 r3
                      | l3 => pdlF fuel out2 l3) from rfl]
      cases hw : skip_ws l with
      | nil => rw [parseDictLoop_ws_nil hw]
      | cons c r =>
          have hlenr : (c :: r).length ≤ l.length := by
            have := skip_ws_length_le l
            rw [hw] at this
            exact this
          by_cases hc : c = rb
          · subst hc
            rw [parseDictLoop_stop hw]
            simp
          · cases hk : read_key (c :: r) with
            | error e =>
                rw [parseDictLoop_key_err hw hc hk]
                simp [hc, hk]
            | ok p =>
                obtain ⟨key, rest1⟩ := p
                have hlen1 : rest1.length < fuel := by
                  have := read_key_length hk
                  simp only [List.length_cons] at this hlenr
                  omega
                cases hv : read_value rest1 with
                | error e =>
                    rw [parseDictLoop_val_err hw hc hk hv]
                    rw [read_value_eq_F fuel rest1 hlen1] at hv
                    simp [hc, hk, hv]
                | ok p2 =>
                    obtain ⟨val, rest2⟩ := p2
                    have hvF := hv
                    rw [read_value_eq_F fuel rest1 hlen1] at hvF
                    have hlen2 : rest2.length < fuel := by
                      have h2 := read_value_length hv
                      have h1 := read_key_length hk
                      simp only [List.length_cons] at h1 hlenr
                      omega
                    cases hw3 : skip_ws rest2 with
                    | nil =>
                        rw [parseDictLoop_step_other hw hc hk hv hw3
                          (fun r3 => List.noConfusion)]
                        simp only [hc, if_false, hk, hvF, hw3]
                        exact ih _ [] (by simp only [List.length_nil]; omega)
                    | cons d r3 =>
                        have hlen3 : (d :: r3).length ≤ rest2.length := by
                          have := skip_ws_length_le rest2
                          rw [hw3] at this
                          exact this
                        by_cases hd : d = ','
                        · subst hd
                          rw [parseDictLoop_step_comma hw hc hk hv hw3]
                          simp only [hc, if_false, hk, hvF, hw3]
                          apply ih
                          simp only [List.length_cons] at hlen3 ⊢
                          omega
                        · have hl3 : ∀ r4 : List Char, d :: r3 ≠ ',' :: r4 := by
                            intro r4 hcontra
                            injection hcontra with h5 h6
                            exact hd h5
                          rw [parseDictLoop_step_other hw hc hk hv hw3 hl3]
                          simp only [hc, if_false, hk, hvF, hw3]
                          apply ih
                          simp only [List.length_cons] at hlen3 ⊢
                          omega

/-- Fuel-indexed `_parse_shallow_dict`. -/
def psdF (fuel : Nat) (l : List Char) : PRes (List (String × String)) :=
  match skip_ws l with
  | [] => .error .notADict
  | c :: r => if c = lb then pdlF fuel [] r else .error .notADict

theorem psd_eq_F (l : List Char) :
    parse_shallow_dict l = psdF (l.length + 1) l := by
  unfold parse_shallow_dict psdF
  cases hw : skip_ws l with
  | nil => rfl
  | cons c r =>
      dsimp only []
      by_cases hc : c = lb
      · rw [if_pos hc, if_pos hc]
        apply pdl_eq_F
        have := skip_ws_length_le l
        rw [hw] at this
        simp only [List.length_cons] at this
        omega
      · rw [if_neg hc, if_neg hc]

/-- Computable reformulation of `parse_tool_call` over a character list
(used only to evaluate concrete inputs by kernel reduction). -/
def parseToolCallF (l : List Char) : PRes Envelope :=
  match psdF (l.length + 1) l with
  | .error e => .error e
  | .ok top =>
      match dictGet top "tool", dictGet top "args" with
      | some toolVal, some argsVal =>
          let toolStripped := pyStrip toolVal.data
          if toolStripped.isEmpty then .error .emptyToolName
          else
            let argsRaw := pyStrip argsVal.data
            match argsRaw with
            | c :: _ =>
                if c = lb then
                  match psdF (argsRaw.length + 1) argsRaw with
                  | .error e => .error e
                  | .ok argsDict =>
                      .ok { tool := String.mk toolStripped, args := argsDict }
                else .error .argsNotDict
            | [] => .error .argsNotDict
      | _, _ => .error .missingKeys

theorem parseToolCallL_eq_F (l : List Char) :
    parseToolCallL l = parseToolCallF l := by
  unfold parseToolCallL parseToolCallF
  simp only [← psd_eq_F]

theorem parse_tool_call_eq_F (s : String) :
    parse_tool_call s = parseToolCallF s.data := by
  unfold parse_tool_call
  exact parseToolCallL_eq_F s.data

/-- No window of three consecutive `q` characters occurs in the list. -/
def noTripleRun (q : Char) : List Char → Bool
  | a :: b :: c :: r => !(a = q && b = q && c = q) && noTripleRun q (b :: c :: r)
  | _ => true

theorem readTriple_exact (q : Char) :
    ∀ (v rest : List Char), noTripleRun q v = true →
      v.getLast? ≠ some q →
      readTriple q (v ++ q :: q :: q :: rest) = .ok (v, rest) := by
  intro v
  induction v with
  | nil =>
      intro rest _ _
      simp [readTriple]
  | cons a v' ih =>
      intro rest hrun hlast
      have hnt : ¬(a = q ∧ (v' ++ q :: q :: q :: rest).head? = some q ∧
          (v' ++ q :: q :: q :: rest).tail.head? = some q) → True := fun _ => trivial
      cases v' with
      | nil =>
          have ha : a ≠ q := by
            intro hcontra
            apply hlast
            simp [hcontra]
          show readTriple q (a :: q :: q :: q :: rest) = .ok ([a], rest)
          rw [show readTriple q (a :: q :: q :: q :: rest) =
              (if a = q ∧ q = q ∧ q = q then .ok ([], q :: rest)
              else
                match readTriple q (q :: q :: q :: rest) with
                | .error e => .error e
                | .ok (content, rest2) => .ok (a :: content, rest2)) from by
            rw [readTriple.eq_def]]
          rw [if_neg (by intro hc; exact ha hc.1)]
          rw [show readTriple q (q :: q :: q :: rest) = .ok ([], rest) from by
            simp [readTriple]]
      | cons b v'' =>
          have hih := ih rest (by
            cases v'' with
            | nil => rfl
            | cons c v3 =>
                simp only [noTripleRun, Bool.and_eq_true] at hrun
                exact hrun.2) (by
            intro hcontra
            apply hlast
            rw [List.getLast?_cons_cons]
            exact hcontra)
          show readTriple q (a :: b :: (v'' ++ q :: q :: q :: rest)) =
            .ok (a :: b :: v'', rest)
          have hexp : ∃ c2 r2, v'' ++ q :: q :: q :: rest = c2 :: r2 := by
            cases v'' with
            | nil => exact ⟨q, q :: q :: rest, rfl⟩
            | cons c v3 => exact ⟨c, v3 ++ q :: q :: q :: rest, rfl⟩
          obtain ⟨c2, r2, hc2⟩ := hexp
          rw [hc2]
          rw [show readTriple q (a :: b :: c2 :: r2) =
              (if a = q ∧ b = q ∧ c2 = q then .ok ([], r2)
              else
                match readTriple q (b :: c2 :: r2) with
                | .error e => .error e
                | .ok (content, rest2) => .ok (a :: content, rest2)) from by
            rw [readTriple.eq_def]]
          have hnot : ¬(a = q ∧ b = q ∧ c2 = q) := by
            intro ⟨h1, h2, h3⟩
            cases v'' with
            | nil =>
                apply hlast
                simp [h2]
            | cons c v3 =>
                injection hc2 with h4 h5
                subst h4
                subst h1
                subst h2
                subst h3
                simp only [noTripleRun, Bool.and_eq_true,
                  Bool.not_eq_true'] at hrun
                simp at hrun
          rw [if_neg hnot]
          rw [← hc2]
          have hih2 : readTriple q (b :: (v'' ++ q :: q :: q :: rest)) =
              .ok (b :: v'', rest) := by
            have h6 : (b :: v'') ++ q :: q :: q :: rest =
                b :: (v'' ++ q :: q :: q :: rest) := by simp
            rw [← h6]
            exact hih
          rw [hih2]

theorem read_quoted_triple (q : Char) (hqs : q = sq ∨ q = dq)
    (v rest : List Char) (hrun : noTripleRun q v = true)
    (hlast : v.getLast? ≠ some q) :
    read_quoted (q :: q :: q :: (v ++ q :: q :: q :: rest)) =
      .ok (v, rest) := by
  have hmain : read_quoted (q :: q :: q :: (v ++ q :: q :: q :: rest)) =
      readTriple q (v ++ q :: q :: q :: rest) := by
    rcases hqs with h | h <;> subst h <;> simp [read_quoted]
  rw [hmain]
  exact readTriple_exact q v rest hrun hlast

/-!
Embedding of `noetik/tools/__init__.py` (`register_tool`, `TOOL_REGISTRY`)
and `noetik/agent/tool_executor.py` (`execute_tool`).
-/

/-- A Python exception escaping a tool invocation: either a `TypeError`
(which in Python also covers keyword-binding failures of the call itself)
or any other exception, each carrying its message. -/
inductive PyExc where
  | typeError (msg : String)
  | otherError (msg : String)
deriving Repr, DecidableEq

/-- A registered tool: the names of its (all required) parameters, and a
body run once keyword binding succeeded.  The body returns a value or the
Python exception it raises. -/
structure Tool where
  params : List String
  body : List (String × String) → Except PyExc String

/-- Keyword binding of `tool_fn(**args)`: every required parameter is
supplied and no unexpected keyword is passed. -/
def bindOk (t : Tool) (args : List (String × String)) : Bool :=
  t.params.all (fun p => args.any (fun kv => kv.1 = p)) &&
  args.all (fun kv => t.params.any (fun p => p = kv.1))

/-- Embeds the Python call `tool_fn(**args)`: a parameter-shape mismatch
raises `TypeError` before the body runs (the Python message names the
missing/unexpected parameter; the embedding uses a fixed detail string). -/
def callTool (t : Tool) (args : List (String × String)) : Except PyExc String :=
  if bindOk t args then t.body args
  else .error (.typeError "argument binding failed")

/-- The error cases of `ToolExecutionError`, distinguished as the three
message shapes `execute_tool` produces: "Tool '<name>' is not
registered.", "Invalid arguments for tool '<name>': <detail>" and
"Tool '<name>' raised an error: <detail>". -/
inductive ExecErr where
  | notRegistered (name : String)
  | invalidArguments (name : String) (detail : String)
  | toolRaised (name : String) (detail : String)
deriving Repr, DecidableEq

/-- Embeds `execute_tool`: look the name up in the registry, invoke the
tool with the args as keywords, and translate failures — `except
TypeError` becomes the invalid-arguments message, any other exception the
tool-raised message with the original message preserved.  (The Python
default `args=None` meaning `{}` is modelled by passing `[]`.) -/
def execute_tool (reg : List (String × Tool)) (name : String)
    (args : List (String × String)) : Except ExecErr String :=
  match dictGet reg name with
  | none => .error (.notRegistered name)
  | some t =>
      match callTool t args with
      | .ok v => .ok v
      | .error (.typeError m) => .error (.invalidArguments name m)
      | .error (.otherError m) => .error (.toolRaised name m)

/-- Embeds `register_tool` from `noetik/tools/__init__.py`: a duplicate
name is a `ValueError` raised before the decorator is returned; otherwise
the returned decorator installs the callable with
`TOOL_REGISTRY[name] = fn`. -/
def register_tool {α : Type} (reg : List (String × α)) (name : String) :
    Except String (α → List (String × α)) :=
  if reg.any (fun e => e.1 = name) then
    .error ("Tool " ++ String.mk [sq] ++ name ++ String.mk [sq] ++
      " is already registered.")
  else .ok (fun fn => dictSet reg name fn)

/-!
Embedding of `BasePlanner._parse_response` from `noetik/core/planner.py`.
-/

/-- The `ToolCall` record of `noetik/core/schema.py` (args values are the
raw strings the parser produced). -/
structure ToolCall where
  name : String
  args : List (String × String)
deriving Repr, DecidableEq

/-- The configured answer marker `llm_answer_prefix = "Answer:"`. -/
def llmAnswerMark : String := "Answer:"

/-- Drop leading regex-`\s` whitespace. -/
def dropSpaces (l : List Char) : List Char := l.dropWhile isPySpace

/-- Embeds the structural pre-check
`re.match(r'\\{\\s*(["\'])tool\\1\\s*:', s)`: a left brace, optional
whitespace, a quote, the four characters of `tool`, the same quote,
optional whitespace and a colon, at the very start of the text. -/
def toolShapeRe (l : List Char) : Bool :=
  match l with
  | c :: r =>
      c = lb &&
      (match dropSpaces r with
      | q :: r2 =>
          isQuote q &&
          (match r2 with
          | t :: o1 :: o2 :: l4 :: r3 =>
              t = 't' && o1 = 'o' && o2 = 'o' && l4 = 'l' &&
              (match r3 with
              | q2 :: r4 =>
                  q2 = q &&
                  (match dropSpaces r4 with
                  | c2 :: _ => c2 = ':'
                  | [] => false)
              | [] => false)
          | _ => false)
      | [] => false)
  | [] => false

/-- The detail string of each parse failure (the Python messages, with
scan positions elided by the suffix-passing embedding). -/
def errDetail : PErr → String
  | .unterminatedTriple => "unterminated triple-quoted string"
  | .unterminatedString => "unterminated string literal"
  | .expectedQuote => "expected quote"
  | .unbalancedBraces => "unbalanced braces"
  | .unquotedKey => "dict key must be quoted"
  | .missingColon => "missing colon after key"
  | .unexpectedEndValue => "unexpected end of input while reading value"
  | .notADict => "dict must start with a left brace"
  | .unexpectedEndDict => "unexpected end of input in dict"
  | .missingKeys => "both tool and args keys are required"
  | .emptyToolName => "tool name is empty"
  | .argsNotDict => "args must start with a left brace"
  | .index => "index out of range"

/-- Embeds `BasePlanner._parse_response`: strip the reply; an
`Answer:`-prefixed reply is a direct answer (tool calls empty, answer
stripped); a reply passing the structural pre-check is parsed as a tool
call, a parse failure being reported as the error text; anything else is
returned verbatim as the answer.  The Pydantic `model_validate` calls
always succeed on the shapes constructed here and are embedded as the
identity. -/
def parseResponse (content : String) : List ToolCall × Option String :=
  let s := pyStrip content.data
  if llmAnswerMark.data.isPrefixOf s then
    ([], some (String.mk (pyStrip (s.drop llmAnswerMark.data.length))))
  else if toolShapeRe s then
    match parse_tool_call (String.mk s) with
    | .error e =>
        ([], some ("Failed to parse tool use response: " ++ String.mk s ++
          "\nError: " ++ errDetail e))
    | .ok env => ([{ name := env.tool, args := env.args }], none)
  else ([], some (String.mk s))

/-- Computable reformulation of `parseResponse` (evaluation tool only). -/
def parseResponseF (content : String) : List ToolCall × Option String :=
  let s := pyStrip content.data
  if llmAnswerMark.data.isPrefixOf s then
    ([], some (String.mk (pyStrip (s.drop llmAnswerMark.data.length))))
  else if toolShapeRe s then
    match parseToolCallF (String.mk s).data with
    | .error e =>
        ([], some ("Failed to parse tool use response: " ++ String.mk s ++
          "\nError: " ++ errDetail e))
    | .ok env => ([{ name := env.tool, args := env.args }], none)
  else ([], some (String.mk s))

theorem parseResponse_eq_F (content : String) :
    parseResponse content = parseResponseF content := by
  unfold parseResponse parseResponseF parse_tool_call
  simp only [parseToolCallL_eq_F]

/-- C1 counterexample: the name `" "` (one space) is non-empty and
contains no quote characters, so the claim as stated asserts that its
serialized envelope parses back to `(" ", \x7b\x7d)`; the code instead
strips the name and fails with the empty-tool-name error. -/
theorem c1_counterexample :
    (" ".data ≠ [] ∧ (" ".data.all fun c => !(c = sq || c = dq)) = true) ∧
    mkEnvelope " ".data [] =
      "\x7b\"tool\": \" \", \"args\": \x7b\x7d\x7d".data ∧
    parseToolCallL (mkEnvelope " ".data []) = .error .emptyToolName ∧
    parseToolCallL (mkEnvelope " ".data []) ≠
      .ok { tool := " ", args := [] } := by
  refine ⟨⟨by decide, by decide⟩, by decide, ?_, ?_⟩
  · rw [parseToolCallL_eq_F]
    decide
  · rw [parseToolCallL_eq_F]
    decide

theorem c1_round_trip_witness :
    parseToolCallL (mkEnvelope "echo".data [("text".data, "hi".data)]) =
      .ok { tool := "echo", args := [("text", "hi")] } :=
  c1_round_trip "echo".data [("text".data, "hi".data)]
    (by decide) (by decide) (by decide) (by decide) (by decide)

/-- C2: `parse_tool_call` is total from the caller's perspective - on
every input string it terminates (it is a total Lean function) and either
returns a `tool`/`args` envelope or fails with one of the named parse
failures of the single documented error kind (`ToolCallParseError`); in
particular the `IndexError` outcome modelling an out-of-bounds `s[i]`
access is never produced. -/
theorem c2_parse_totality (s : String) :
    (∃ env, parse_tool_call s = .ok env) ∨
      (∃ e, parse_tool_call s = .error e ∧ e ≠ .index) := by
  cases h : parse_tool_call s with
  | ok env => exact Or.inl ⟨env, rfl⟩
  | error e => exact Or.inr ⟨e, rfl, parseToolCallL_not_index h⟩

/-- C4: quoted regions are skipped wholesale by the brace-matching scan.
Part 1: a double-quoted region (whose content may contain braces, being
only quote- and backslash-free) does not perturb the depth count at any
depth.  Part 2: a triple-quoted region parses verbatim - content with no
run of three quotes and not ending in a quote is returned exactly,
internal single quotes and braces included.  Parts 3 and 4: the concrete
inputs of the specification - a quoted value `"\x7bnot a dict\x7d"`
resolves to the literal string, and a triple-quoted value containing an
unescaped internal single quote and embedded braces parses verbatim.
Part 5: a single-quoted value containing braces likewise resolves to its
literal content without perturbing the outer brace counting. -/
theorem c4_quoted_regions :
    (∀ (d : Int) (v rest : List Char), goodStr v = true →
      (v = [] → rest.head? ≠ some dq) →
      find_matching_brace d (dq :: (v ++ dq :: rest)) =
        find_matching_brace d rest) ∧
    (∀ (v rest : List Char), noTripleRun sq v = true →
      v.getLast? ≠ some sq →
      read_quoted (sq :: sq :: sq :: (v ++ sq :: sq :: sq :: rest)) =
        .ok (v, rest)) ∧
    parse_tool_call
        "\x7b\"tool\": \"t\", \"args\": \x7b\"k\": \"\x7bnot a dict\x7d\"\x7d\x7d" =
      .ok { tool := "t", args := [("k", "\x7bnot a dict\x7d")] } ∧
    parseToolCallL
        ("\x7b\"tool\": \"t\", \"args\": \x7b\"k\": ".data ++
          ([sq, sq, sq] ++ ("it".data ++ ([sq] ++ ("s \x7bx\x7d".data ++
            ([sq, sq, sq] ++ "\x7d\x7d".data)))))) =
      .ok (Envelope.mk "t"
        [("k", String.mk ("it".data ++ [sq] ++ "s \x7bx\x7d".data))]) ∧
    parseToolCallL
        ("\x7b\"tool\": \"t\", \"args\": \x7b\"k\": ".data ++
          ([sq] ++ ("\x7bnot a dict\x7d".data ++ ([sq] ++ "\x7d\x7d".data)))) =
      .ok (Envelope.mk "t" [("k", "\x7bnot a dict\x7d")]) := by
  refine ⟨fmb_skip_quoted, fun v rest => read_quoted_triple sq (Or.inl rfl) v rest,
    ?_, ?_, ?_⟩
  · rw [parse_tool_call_eq_F]
    decide
  · rw [parseToolCallL_eq_F]
    decide
  · rw [parseToolCallL_eq_F]
    decide

theorem c4_quoted_regions_witness :
    find_matching_brace 3 (dq :: ("\x7bnot a dict\x7d".data ++ dq :: [rb])) =
      find_matching_brace 3 [rb] ∧
    read_quoted (sq :: sq :: sq ::
        (("it".data ++ [sq] ++ "s \x7bx\x7d".data) ++ sq :: sq :: sq :: [])) =
      .ok ("it".data ++ [sq] ++ "s \x7bx\x7d".data, []) :=
  ⟨c4_quoted_regions.1 3 "\x7bnot a dict\x7d".data [rb] (by decide)
      (by intro h; cases h),
    c4_quoted_regions.2.1 ("it".data ++ [sq] ++ "s \x7bx\x7d".data) []
      (by decide) (by decide)⟩

/-- C6: backslash escapes in single/double-quoted strings - `\x` parses
to the literal character `x` with no unicode-escape decoding (part 1:
prepending an escaped character to any successfully-scanned remainder
yields that literal character, for every character including the quote
itself), and a value containing escaped quotes, such as
`"a \\"q\\" w"`, parses to the literal content with the quotes
unescaped and no truncation (part 2). -/
theorem c6_escapes :
    (∀ (q x : Char) (r out rest : List Char),
      readEscaped q r = .ok (out, rest) →
      readEscaped q (bs :: x :: r) = .ok (x :: out, rest)) ∧
    parse_tool_call
        "\x7b\"tool\": \"t\", \"args\": \x7b\"k\": \"a \\\"q\\\" w\"\x7d\x7d" =
      .ok { tool := "t", args := [("k", "a \"q\" w")] } := by
  constructor
  · intro q x r out rest h
    rw [readEscaped.eq_def]
    simp [h]
  · rw [parse_tool_call_eq_F]
    decide

theorem c6_escapes_witness :
    readEscaped dq (bs :: dq :: (dq :: [])) = .ok ([dq], []) :=
  c6_escapes.1 dq dq [dq] [] [] (by decide)

/-- C7: duplicate keys in a (well-formed) shallow dict are accepted - no
duplicate-key error is raised, parsing succeeds, and the returned mapping
binds every key to the value of its last occurrence. -/
theorem c7_duplicate_keys (entries : List (List Char × List Char))
    (hg : entries.all (fun kv => goodStr kv.1 && goodStr kv.2) = true) :
    ∃ d, parse_shallow_dict
        (lb :: (renderVal.renderQEntries entries ++ [rb])) = .ok d ∧
      ∀ k, dictGet d k =
        lastLookup (entries.map (fun kv => (String.mk kv.1, String.mk kv.2))) k := by
  refine ⟨(asQ entries).foldl
    (fun d e => dictSet d (String.mk e.1) (String.mk (parsedVal e.2))) [], ?_, ?_⟩
  · rw [parse_shallow_dict_lb (skip_ws_cons_not _ (by decide))]
    rw [show renderVal.renderQEntries entries ++ [rb] =
      renderEntries (asQ entries) ++ (rb :: []) from by rw [renderEntries_asQ]]
    rw [parseDictLoop_rendered (asQ entries) [] []
      (by rw [goodEntries_asQ]; exact hg)]
  · intro k
    have hfold : (asQ entries).foldl
        (fun d e => dictSet d (String.mk e.1) (String.mk (parsedVal e.2))) [] =
        (entries.map (fun kv => (String.mk kv.1, String.mk kv.2))).foldl
          (fun d e => dictSet d e.1 e.2) [] := by
      unfold asQ
      rw [List.foldl_map, List.foldl_map]
      rfl
    rw [hfold]
    rw [dictGet_foldl]
    have hnone : dictGet ([] : List (String × String)) k = none := rfl
    rw [hnone]
    cases lastLookup (entries.map (fun kv => (String.mk kv.1, String.mk kv.2))) k
      <;> rfl

theorem c7_duplicate_keys_witness :
    ∃ d, parse_shallow_dict
        (lb :: (renderVal.renderQEntries
          [("k".data, "1".data), ("k".data, "2".data)] ++ [rb])) = .ok d ∧
      ∀ k, dictGet d k =
        lastLookup ([("k".data, "1".data), ("k".data, "2".data)].map
          (fun kv => (String.mk kv.1, String.mk kv.2))) k :=
  c7_duplicate_keys [("k".data, "1".data), ("k".data, "2".data)] (by decide)

/-- C5: the missing-keys failure occurs exactly when the outer shallow
dict parses but lacks the `tool` key or the `args` key (part 1); the
concrete envelope with only a `tool` key fails with the missing-keys
condition (part 2); and the order of the two keys is not significant - an
envelope listing `args` before `tool` parses to the same envelope as the
serialization listing `tool` first (part 3). -/
theorem c5_missing_keys :
    (∀ l : List Char, parseToolCallL l = .error .missingKeys ↔
      ∃ top, parse_shallow_dict l = .ok top ∧
        (dictGet top "tool" = none ∨ dictGet top "args" = none)) ∧
    parse_tool_call "\x7b\"tool\": \"x\"\x7d" = .error .missingKeys ∧
    (∀ (name : List Char) (args : List (List Char × List Char)),
      name ≠ [] → goodStr name = true → pyStrip name = name →
      args.all (fun kv => goodStr kv.1 && goodStr kv.2) = true →
      (args.map (fun kv => String.mk kv.1)).Nodup →
      parseToolCallL (lb :: (renderEntries
        [("args".data, SVal.braced args), ("tool".data, SVal.q name)] ++ [rb])) =
        parseToolCallL (mkEnvelope name args)) := by
  refine ⟨parseToolCallL_missingKeys_iff, ?_, ?_⟩
  · rw [parse_tool_call_eq_F]
    decide
  · intro name args h1 h2 h3 h4 h5
    have hswap : parseToolCallL (lb :: (renderEntries
        [("args".data, SVal.braced args), ("tool".data, SVal.q name)] ++ [rb])) =
        .ok ⟨String.mk name,
          args.map (fun kv => (String.mk kv.1, String.mk kv.2))⟩ := by
      apply parseToolCallL_rendered _ name args
      · simp only [goodEntries, List.all_cons, List.all_nil, goodVal,
          Bool.and_eq_true, Bool.and_true]
        refine ⟨⟨by decide, ?_⟩, by decide, h2⟩
        simpa [goodVal, List.all_eq_true] using h4
      · simp only [List.map_cons, List.map_nil]
        rw [show String.mk "tool".data = "tool" from rfl,
          show String.mk "args".data = "args" from rfl]
        decide
      · simp only [List.map_cons, List.map_nil]
        rw [show String.mk "tool".data = "tool" from rfl,
          show String.mk "args".data = "args" from rfl]
        simp [dictGet, List.find?_cons, parsedVal]
      · simp only [List.map_cons, List.map_nil]
        rw [show String.mk "args".data = "args" from rfl]
        simp [dictGet, List.find?_cons]
      · exact h1
      · exact h3
      · exact h4
      · exact h5
    have horig := mkEnvelope_parse_ok name args h1 h2 h3 h4 h5
    rw [hswap, horig]

theorem c5_missing_keys_witness :
    parseToolCallL (lb :: (renderEntries
        [("args".data, SVal.braced [("a".data, "1".data)]),
          ("tool".data, SVal.q "t".data)] ++ [rb])) =
      parseToolCallL (mkEnvelope "t".data [("a".data, "1".data)]) :=
  c5_missing_keys.2.2 "t".data [("a".data, "1".data)]
    (by decide) (by decide) (by decide) (by decide) (by decide)

/-- C3 counterexample: a `TypeError` raised from within the tool body is
reported with the argument-mismatch message shape
(`Invalid arguments for tool ...`), not the tool-raised shape, so at this
input the two categories are conflated, contrary to the claim. -/
theorem c3_body_type_error :
    execute_tool
        [("bad", Tool.mk [] (fun _ => .error (.typeError "boom")))] "bad" [] =
      .error (.invalidArguments "bad" "boom") ∧
    (∀ nm d, (Except.error (ExecErr.invalidArguments "bad" "boom") :
        Except ExecErr String) ≠ .error (.toolRaised nm d)) := by
  constructor
  · rfl
  · intro nm d h
    injection h with h2
    cases h2

/-- C3 (amended): with a registered tool, a parameter-shape mismatch of
the invocation re-fails as the argument-mismatch category; a non-TypeError
failure raised from within the tool body re-fails as the distinct
tool-raised category with the original message preserved in the detail;
but a `TypeError` raised from within the body is also reported as the
argument-mismatch category (the `except TypeError` handler does not
distinguish where the `TypeError` came from). -/
theorem c3_error_categories (reg : List (String × Tool)) (name : String)
    (t : Tool) (args : List (String × String))
    (hreg : dictGet reg name = some t) :
    (bindOk t args = false →
      execute_tool reg name args =
        .error (.invalidArguments name "argument binding failed")) ∧
    (∀ m, bindOk t args = true → t.body args = .error (.otherError m) →
      execute_tool reg name args = .error (.toolRaised name m)) ∧
    (∀ m, bindOk t args = true → t.body args = .error (.typeError m) →
      execute_tool reg name args = .error (.invalidArguments name m)) := by
  refine ⟨?_, ?_, ?_⟩
  · intro hb
    simp [execute_tool, callTool, hreg, hb]
  · intro m hb hbody
    simp [execute_tool, callTool, hreg, hb, hbody]
  · intro m hb hbody
    simp [execute_tool, callTool, hreg, hb, hbody]

theorem c3_error_categories_witness :
    execute_tool [("add", Tool.mk ["a", "b"] (fun _ => .ok "r"))] "add"
        [("a", "2")] =
      .error (.invalidArguments "add" "argument binding failed") ∧
    execute_tool [("boom", Tool.mk [] (fun _ => .error (.otherError "fail")))]
        "boom" [] =
      .error (.toolRaised "boom" "fail") :=
  ⟨(c3_error_categories [("add", Tool.mk ["a", "b"] (fun _ => .ok "r"))]
      "add" (Tool.mk ["a", "b"] (fun _ => .ok "r")) [("a", "2")] rfl).1
      (by decide),
    (c3_error_categories
      [("boom", Tool.mk [] (fun _ => .error (.otherError "fail")))] "boom"
      (Tool.mk [] (fun _ => .error (.otherError "fail"))) [] rfl).2.1 "fail"
      (by decide) rfl⟩

/-- C8: with the answer marker `Answer:`, the classifier maps
`Answer: 42` to a direct answer `42` with no tool calls; maps the
`echo`/`hi` envelope to the single tool call with no direct answer; and
maps `just chatting` to the fallback that returns the text verbatim as
the answer (the code renders the direct-answer and unrecognized verdicts
as an empty call list together with the answer text). -/
theorem c8_classifier_routing :
    parseResponse "Answer: 42" = ([], some "42") ∧
    parseResponse
        "\x7b\"tool\": \"echo\", \"args\": \x7b\"text\": \"hi\"\x7d\x7d" =
      ([ToolCall.mk "echo" [("text", "hi")]], none) ∧
    parseResponse "just chatting" = ([], some "just chatting") := by
  refine ⟨?_, ?_, ?_⟩ <;> rw [parseResponse_eq_F] <;> decide

/-- C9: registering a name already present in the registry fails at
registration time with the already-registered error, before any callable
is installed (no installer is returned); and a successful registration
preserves key uniqueness, so the registry never holds two callables under
one name. -/
theorem c9_unique_registration {α : Type} (reg : List (String × α))
    (name : String) :
    (reg.any (fun e => e.1 = name) = true →
      register_tool reg name =
        .error ("Tool " ++ String.mk [sq] ++ name ++ String.mk [sq] ++
          " is already registered.")) ∧
    (∀ (inst : α → List (String × α)) (fn : α),
      register_tool reg name = .ok inst →
      (reg.map Prod.fst).Nodup → ((inst fn).map Prod.fst).Nodup) := by
  constructor
  · intro h
    simp [register_tool, h]
  · intro inst fn hok hnodup
    unfold register_tool at hok
    by_cases hmem : reg.any (fun e => e.1 = name) = true
    · rw [if_pos hmem] at hok
      cases hok
    · rw [if_neg hmem] at hok
      injection hok with h2
      subst h2
      show (List.map Prod.fst (dictSet reg name fn)).Nodup
      have hmem2 : reg.any (fun e => e.1 = name) = false := by
        cases hany : reg.any (fun e => e.1 = name) with
        | false => rfl
        | true => exact absurd hany hmem
      rw [dictSet_append reg name fn hmem2]
      rw [List.map_append, List.nodup_append]
      refine ⟨hnodup, by simp, ?_⟩
      intro a ha hb
      simp only [List.map_cons, List.map_nil, List.mem_singleton] at hb
      subst hb
      apply hmem
      rw [List.any_eq_true]
      obtain ⟨e, he, he2⟩ := List.mem_map.mp ha
      exact ⟨e, he, by simp [he2]⟩

theorem c9_unique_registration_witness :
    register_tool [(("echo" : String), "f")] "echo" =
      .error ("Tool " ++ String.mk [sq] ++ "echo" ++ String.mk [sq] ++
        " is already registered.") :=
  (c9_unique_registration [("echo", "f")] "echo").1 (by decide)

theorem c10_extra_keys_witness :
    parseToolCallL (lb :: (renderEntries
        ([("x".data, SVal.q "1".data)] ++ ("tool".data, SVal.q "t".data) ::
          ([] ++ ("args".data, SVal.braced []) ::
            [("y".data, SVal.q "2".data)])) ++ [rb])) =
      .ok { tool := "t", args := [] } :=
  c10_extra_keys "t".data [] [("x".data, SVal.q "1".data)] []
    [("y".data, SVal.q "2".data)]
    (by decide) (by decide) (by decide) (by decide) (by decide) (by decide)

end Noetik
